import Mathlib

/-!
Verification of the grid pursuit core of the Tron light-cycle game
(src/game.py): the A* pathfinder, the flood-fill reachability evaluator,
the enemy agent's decision procedure, and the per-tick collision resolver.
Python integer tuples are modelled as pairs of integers, Python sets as
finite sets, and the two loops that run over an a-priori unbounded agenda
(the A* main loop and the flood-fill loop) are modelled with an explicit
fuel parameter; a sufficiency theorem shows the chosen fuel is never
exhausted, so the fuel-free Python semantics is captured exactly.
-/

set_option maxRecDepth 4000

/-- A grid cell, a pair of Python integers (col, row). -/
abbrev Cell : Type := Int × Int

/-- Number of grid columns, the constant COLS of the source. -/
def COLS : Int := 60

/-- Number of grid rows, the constant ROWS of the source. -/
def ROWS : Int := 40

/-- The four direction deltas UP, DOWN, LEFT, RIGHT in the order of the
source's DIRS list. -/
def DIRS : List Cell := [(0, -1), (0, 1), (-1, 0), (1, 0)]

/-- The opposite function of the source: negate both components. -/
def opposite (d : Cell) : Cell := (-d.1, -d.2)

/-- Bounds test 0 <= x < COLS and 0 <= y < ROWS, as in the source's
neighbour checks and Cycle.in_bounds. -/
def inBoundsP (c : Cell) : Prop :=
  0 ≤ c.1 ∧ c.1 < COLS ∧ 0 ≤ c.2 ∧ c.2 < ROWS

instance (c : Cell) : Decidable (inBoundsP c) := by
  unfold inBoundsP; infer_instance

/-- The finite set of all in-bounds cells of the 60 x 40 grid. -/
def gridCells : Finset Cell :=
  (Finset.Icc (0 : Int) (COLS - 1)) ×ˢ (Finset.Icc (0 : Int) (ROWS - 1))

theorem mem_gridCells (c : Cell) : c ∈ gridCells ↔ inBoundsP c := by
  unfold gridCells inBoundsP COLS ROWS
  rw [Finset.mem_product, Finset.mem_Icc, Finset.mem_Icc]
  omega

theorem card_gridCells : gridCells.card = 2400 := by
  unfold gridCells
  rw [Finset.card_product, Int.card_Icc, Int.card_Icc]
  rfl

/-- Manhattan-distance heuristic of the source. -/
def heuristic (a b : Cell) : Nat :=
  (a.1 - b.1).natAbs + (a.2 - b.2).natAbs

/-- One frontier entry of the A* priority queue: the tuple
(f, g, node, path) pushed onto the heap in the source. -/
structure Entry where
  f : Nat
  g : Nat
  node : Cell
  path : List Cell
deriving DecidableEq

/-- Strict lexicographic comparison of two cells, mirroring Python's
comparison of integer 2-tuples. -/
def cellLTb (a b : Cell) : Bool :=
  if a.1 < b.1 then true
  else if b.1 < a.1 then false
  else decide (a.2 < b.2)

/-- Non-strict lexicographic comparison of two paths (lists of cells),
mirroring Python's comparison of lists. -/
def pathLEb : List Cell → List Cell → Bool
  | [], _ => true
  | _ :: _, [] => false
  | a :: as, b :: bs =>
    if cellLTb a b then true
    else if a = b then pathLEb as bs
    else false

/-- Non-strict lexicographic comparison of two frontier entries, mirroring
Python's comparison of the heap tuples (f, g, node, path). -/
def entryLEb (e₁ e₂ : Entry) : Bool :=
  if e₁.f < e₂.f then true
  else if e₂.f < e₁.f then false
  else if e₁.g < e₂.g then true
  else if e₂.g < e₁.g then false
  else if cellLTb e₁.node e₂.node then true
  else if cellLTb e₂.node e₁.node then false
  else pathLEb e₁.path e₂.path

theorem cellLTb_trichotomy (a b : Cell) :
    cellLTb a b = true ∨ a = b ∨ cellLTb b a = true := by
  rcases a with ⟨a₁, a₂⟩; rcases b with ⟨b₁, b₂⟩
  unfold cellLTb
  by_cases h₁ : a₁ < b₁ <;> by_cases h₂ : b₁ < a₁ <;>
    simp [h₁, h₂, Prod.ext_iff] <;> omega

theorem cellLTb_asymm (a b : Cell) (h : cellLTb a b = true) :
    cellLTb b a = false := by
  rcases a with ⟨a₁, a₂⟩; rcases b with ⟨b₁, b₂⟩
  unfold cellLTb at h ⊢
  by_cases h₁ : a₁ < b₁ <;> by_cases h₂ : b₁ < a₁ <;>
    simp_all <;> omega

theorem cellLTb_trans (a b c : Cell) (hab : cellLTb a b = true)
    (hbc : cellLTb b c = true) : cellLTb a c = true := by
  rcases a with ⟨a₁, a₂⟩; rcases b with ⟨b₁, b₂⟩; rcases c with ⟨c₁, c₂⟩
  unfold cellLTb at hab hbc ⊢
  by_cases h₁ : a₁ < b₁ <;> by_cases h₂ : b₁ < a₁ <;>
    by_cases h₃ : b₁ < c₁ <;> by_cases h₄ : c₁ < b₁ <;>
    by_cases h₅ : a₁ < c₁ <;> by_cases h₆ : c₁ < a₁ <;>
    simp_all <;> omega

theorem cellLTb_irrefl (a : Cell) : cellLTb a a = false := by
  unfold cellLTb; simp

theorem pathLEb_total (p q : List Cell) :
    pathLEb p q = true ∨ pathLEb q p = true := by
  induction p generalizing q with
  | nil => left; rfl
  | cons a as ih =>
    cases q with
    | nil => right; rfl
    | cons b bs =>
      rcases cellLTb_trichotomy a b with h | h | h
      · left; simp [pathLEb, h]
      · subst h
        rcases ih bs with h' | h'
        · left; simp [pathLEb, cellLTb_irrefl, h']
        · right; simp [pathLEb, cellLTb_irrefl, h']
      · right; simp [pathLEb, h]

theorem pathLEb_trans (p q r : List Cell) (hpq : pathLEb p q = true)
    (hqr : pathLEb q r = true) : pathLEb p r = true := by
  induction p generalizing q r with
  | nil => rfl
  | cons a as ih =>
    cases q with
    | nil => simp [pathLEb] at hpq
    | cons b bs =>
      cases r with
      | nil => simp [pathLEb] at hqr
      | cons c cs =>
        simp only [pathLEb] at hpq hqr ⊢
        by_cases hab : cellLTb a b = true
        · by_cases hbc : cellLTb b c = true
          · simp [cellLTb_trans a b c hab hbc]
          · by_cases hbceq : b = c
            · subst hbceq; simp [hab]
            · rw [Bool.not_eq_true] at hbc
              simp [hbc, hbceq] at hqr
        · rw [Bool.not_eq_true] at hab
          by_cases habeq : a = b
          · subst habeq
            simp [hab] at hpq
            by_cases hac : cellLTb a c = true
            · simp [hac]
            · rw [Bool.not_eq_true] at hac
              by_cases haceq : a = c
              · subst haceq
                simp [hac] at hqr ⊢
                exact ih bs cs hpq hqr
              · simp [hac, haceq] at hqr
          · simp [hab, habeq] at hpq

theorem pathLEb_refl (p : List Cell) : pathLEb p p = true := by
  induction p with
  | nil => rfl
  | cons a as ih => simp [pathLEb, cellLTb_irrefl, ih]

theorem entryLEb_refl (e : Entry) : entryLEb e e = true := by
  unfold entryLEb
  simp [cellLTb_irrefl, pathLEb_refl]

theorem entryLEb_total (e₁ e₂ : Entry) :
    entryLEb e₁ e₂ = true ∨ entryLEb e₂ e₁ = true := by
  unfold entryLEb
  by_cases h₁ : e₁.f < e₂.f
  · left; simp [h₁]
  · by_cases h₂ : e₂.f < e₁.f
    · right; simp [h₁, h₂]
    · by_cases h₃ : e₁.g < e₂.g
      · left; simp [h₁, h₂, h₃]
      · by_cases h₄ : e₂.g < e₁.g
        · right; simp [h₁, h₂, h₃, h₄]
        · by_cases h₅ : cellLTb e₁.node e₂.node = true
          · left; simp [h₁, h₂, h₃, h₄, h₅]
          · by_cases h₆ : cellLTb e₂.node e₁.node = true
            · right; simp [h₁, h₂, h₃, h₄, h₅, h₆]
            · rcases pathLEb_total e₁.path e₂.path with h | h
              · left; simp [h₁, h₂, h₃, h₄, h₅, h₆, h]
              · right; simp [h₁, h₂, h₃, h₄, h₅, h₆, h]

theorem entryLEb_iff (e₁ e₂ : Entry) :
    entryLEb e₁ e₂ = true ↔
      (e₁.f < e₂.f ∨ (e₁.f = e₂.f ∧
        (e₁.g < e₂.g ∨ (e₁.g = e₂.g ∧
          (cellLTb e₁.node e₂.node = true ∨ (e₁.node = e₂.node ∧
            pathLEb e₁.path e₂.path = true)))))) := by
  unfold entryLEb
  by_cases h₁ : e₁.f < e₂.f
  · simp [h₁]
  · by_cases h₂ : e₂.f < e₁.f
    · simp [h₁, h₂]; omega
    · have hf : e₁.f = e₂.f := by omega
      by_cases h₃ : e₁.g < e₂.g
      · simp [h₁, h₂, h₃, hf]
      · by_cases h₄ : e₂.g < e₁.g
        · simp [h₁, h₂, h₃, h₄]; omega
        · have hg : e₁.g = e₂.g := by omega
          by_cases h₅ : cellLTb e₁.node e₂.node = true
          · simp [h₁, h₂, h₃, h₄, h₅, hf, hg]
          · by_cases h₆ : cellLTb e₂.node e₁.node = true
            · have hne : e₁.node ≠ e₂.node := by
                intro h; rw [h] at h₆
                rw [cellLTb_irrefl] at h₆; exact absurd h₆ (by simp)
              simp [h₁, h₂, h₃, h₄, h₅, h₆, hne]
            · have heq : e₁.node = e₂.node := by
                rcases cellLTb_trichotomy e₁.node e₂.node with h | h | h
                · exact absurd h h₅
                · exact h
                · exact absurd h h₆
              simp [h₁, h₂, h₃, h₄, h₅, h₆, hf, hg, heq, cellLTb_irrefl]

theorem entryLEb_trans (e₁ e₂ e₃ : Entry) (h12 : entryLEb e₁ e₂ = true)
    (h23 : entryLEb e₂ e₃ = true) : entryLEb e₁ e₃ = true := by
  rw [entryLEb_iff] at h12 h23 ⊢
  rcases h12 with hf | ⟨hf, h12⟩
  · rcases h23 with hf' | ⟨hf', _⟩
    · left; omega
    · left; omega
  · rcases h23 with hf' | ⟨hf', h23⟩
    · left; omega
    · right; refine ⟨by omega, ?_⟩
      rcases h12 with hg | ⟨hg, h12⟩
      · rcases h23 with hg' | ⟨hg', _⟩
        · left; omega
        · left; omega
      · rcases h23 with hg' | ⟨hg', h23⟩
        · left; omega
        · right; refine ⟨by omega, ?_⟩
          rcases h12 with hn | ⟨hn, h12⟩
          · rcases h23 with hn' | ⟨hn', _⟩
            · left; exact cellLTb_trans _ _ _ hn hn'
            · left; rw [← hn']; exact hn
          · rcases h23 with hn' | ⟨hn', h23⟩
            · left; rw [hn]; exact hn'
            · right; exact ⟨hn.trans hn', pathLEb_trans _ _ _ h12 h23⟩

theorem entryLEb_f_le (e₁ e₂ : Entry) (h : entryLEb e₁ e₂ = true) :
    e₁.f ≤ e₂.f := by
  rw [entryLEb_iff] at h
  rcases h with h | ⟨h, _⟩
  · omega
  · omega

/-- The smaller of two entries under the heap order. -/
def entryMin (a b : Entry) : Entry := if entryLEb a b then a else b

theorem entryMin_le_left (a b : Entry) : entryLEb (entryMin a b) a = true := by
  unfold entryMin
  by_cases h : entryLEb a b = true
  · simp [h, entryLEb_refl]
  · rcases entryLEb_total a b with h' | h'
    · exact absurd h' h
    · simp [h, h']

theorem entryMin_le_right (a b : Entry) : entryLEb (entryMin a b) b = true := by
  unfold entryMin
  by_cases h : entryLEb a b = true
  · simp [h]
  · simp [h, entryLEb_refl]

theorem entryMin_eq_or (a b : Entry) : entryMin a b = a ∨ entryMin a b = b := by
  unfold entryMin
  by_cases h : entryLEb a b = true
  · left; simp [h]
  · right; simp [h]

/-- The minimum entry of a nonempty list of entries, the value the heap of
the source would pop first. -/
def listMinAux (a : Entry) (l : List Entry) : Entry := l.foldl entryMin a

theorem listMinAux_mem (a : Entry) (l : List Entry) :
    listMinAux a l ∈ a :: l := by
  induction l generalizing a with
  | nil => simp [listMinAux]
  | cons b bs ih =>
    have h := ih (entryMin a b)
    have hgoal : listMinAux a (b :: bs) = listMinAux (entryMin a b) bs := by
      unfold listMinAux
      simp [List.foldl_cons]
    rw [hgoal]
    rcases List.mem_cons.mp h with h'' | h''
    · rw [h'']
      rcases entryMin_eq_or a b with h' | h'
      · rw [h']; exact List.mem_cons_self _ _
      · rw [h']; exact List.mem_cons_of_mem _ (List.mem_cons_self _ _)
    · exact List.mem_cons_of_mem _ (List.mem_cons_of_mem _ h'')

theorem listMinAux_le (a : Entry) (l : List Entry) :
    ∀ y ∈ a :: l, entryLEb (listMinAux a l) y = true := by
  induction l generalizing a with
  | nil =>
    intro y hy
    rcases List.mem_cons.mp hy with h | h
    · rw [h]; exact entryLEb_refl _
    · simp at h
  | cons b bs ih =>
    intro y hy
    have hmin : entryLEb (listMinAux (entryMin a b) bs) (entryMin a b) = true :=
      ih (entryMin a b) _ (List.mem_cons_self _ _)
    have hgoal : listMinAux a (b :: bs) = listMinAux (entryMin a b) bs := by
      unfold listMinAux
      simp [List.foldl_cons]
    rw [hgoal]
    rcases List.mem_cons.mp hy with h | h
    · rw [h]
      exact entryLEb_trans _ _ _ hmin (entryMin_le_left a b)
    · rcases List.mem_cons.mp h with h' | h'
      · rw [h']
        exact entryLEb_trans _ _ _ hmin (entryMin_le_right a b)
      · exact ih (entryMin a b) y (List.mem_cons_of_mem _ h')

/-- Extraction of the minimum entry, the model of heapq.heappop: it returns
the least entry under the lexicographic tuple order together with the
remaining entries.  The source's heap and this list hold the same multiset
of entries at every step, and popping the least value is observationally
the heap's behaviour. -/
def popMin (l : List Entry) : Option (Entry × List Entry) :=
  match l with
  | [] => none
  | a :: as => some (listMinAux a as, (a :: as).erase (listMinAux a as))

theorem popMin_nil : popMin [] = none := rfl

theorem popMin_eq_none (l : List Entry) : popMin l = none ↔ l = [] := by
  cases l with
  | nil => simp [popMin]
  | cons a as => simp [popMin]

theorem popMin_mem {l : List Entry} {e : Entry} {r : List Entry}
    (h : popMin l = some (e, r)) : e ∈ l := by
  cases l with
  | nil => simp [popMin] at h
  | cons a as =>
    simp only [popMin, Option.some_inj, Prod.mk.injEq] at h
    rw [← h.1]
    exact listMinAux_mem a as

theorem popMin_le {l : List Entry} {e : Entry} {r : List Entry}
    (h : popMin l = some (e, r)) : ∀ y ∈ l, entryLEb e y = true := by
  cases l with
  | nil => simp [popMin] at h
  | cons a as =>
    simp only [popMin, Option.some_inj, Prod.mk.injEq] at h
    rw [← h.1]
    exact listMinAux_le a as

theorem popMin_rest {l : List Entry} {e : Entry} {r : List Entry}
    (h : popMin l = some (e, r)) : r = l.erase e := by
  cases l with
  | nil => simp [popMin] at h
  | cons a as =>
    simp only [popMin, Option.some_inj, Prod.mk.injEq] at h
    rw [← h.1, ← h.2]

theorem popMin_rest_subset {l : List Entry} {e : Entry} {r : List Entry}
    (h : popMin l = some (e, r)) : r ⊆ l := by
  rw [popMin_rest h]
  intro x hx
  exact List.mem_of_mem_erase hx

theorem popMin_rest_length {l : List Entry} {e : Entry} {r : List Entry}
    (h : popMin l = some (e, r)) : r.length = l.length - 1 := by
  rw [popMin_rest h]
  exact List.length_erase_of_mem (popMin_mem h)

theorem popMin_mem_rest {l : List Entry} {e : Entry} {r : List Entry}
    (h : popMin l = some (e, r)) {y : Entry} (hy : y ∈ l) (hne : y ≠ e) :
    y ∈ r := by
  rw [popMin_rest h]
  exact (List.mem_erase_of_ne hne).mpr hy

/-- The four neighbour cells of a cell, in the order of the source's DIRS
loop. -/
def neighborsOf (c : Cell) : List Cell :=
  DIRS.map (fun d => (c.1 + d.1, c.2 + d.2))

/-- The entries pushed while the source expands a popped node: one entry
for each neighbour that is not closed, is in bounds and is not blocked
(the three continue-checks of the source, in source order); the closed set
already holds the node being expanded, as in the source. -/
def pushesOf (goal : Cell) (blocked closedNow : Finset Cell) (g : Nat)
    (path : List Cell) (c : Cell) : List Entry :=
  (neighborsOf c).filterMap (fun n =>
    if n ∈ closedNow then none
    else if ¬ inBoundsP n then none
    else if n ∈ blocked then none
    else some ⟨g + 1 + heuristic n goal, g + 1, n, path ++ [n]⟩)

/-- The main loop of the source's astar, with an explicit fuel parameter.
The result none means the fuel ran out (shown never to happen for the fuel
below), some none means the frontier emptied with no path, and
some (some p) means the path p was returned. -/
def astarAux (goal : Cell) (blocked : Finset Cell) :
    Nat → List Entry → Finset Cell → Option (Option (List Cell))
  | fuel, frontier, closed =>
    match popMin frontier with
    | none => some none
    | some (e, rest) =>
      match fuel with
      | 0 => none
      | fuel' + 1 =>
        if e.node = goal then some (some e.path)
        else if e.node ∈ closed then astarAux goal blocked fuel' rest closed
        else
          astarAux goal blocked fuel'
            (rest ++ pushesOf goal blocked (insert e.node closed) e.g e.path e.node)
            (insert e.node closed)

/-- Fuel that the sufficiency theorem proves is never exhausted:
1 + 5 * (grid size + 1). -/
def ASTAR_FUEL : Nat := 12006

/-- The source's astar with its initial frontier and empty closed set. -/
def astarRun (start goal : Cell) (blocked : Finset Cell) :
    Option (Option (List Cell)) :=
  astarAux goal blocked ASTAR_FUEL [⟨heuristic start goal, 0, start, [start]⟩] ∅

/-- The source's astar: the shortest path from start to goal avoiding
blocked cells, or none when no path exists. -/
def astar (start goal : Cell) (blocked : Finset Cell) : Option (List Cell) :=
  (astarRun start goal blocked).join

/-- One inner step of the source's flood-fill loop for a single direction
delta: the neighbour is marked visited and queued when it is unvisited,
unblocked and in bounds (the source's conjunction, in source order). -/
def floodStep (blocked : Finset Cell) (c : Cell)
    (acc : Finset Cell × List Cell) (d : Cell) : Finset Cell × List Cell :=
  let n := (c.1 + d.1, c.2 + d.2)
  if n ∉ acc.1 ∧ n ∉ blocked ∧ inBoundsP n then (insert n acc.1, n :: acc.2)
  else acc

/-- The source's flood_fill_count loop with an explicit fuel parameter.
The source pops from the tail of its queue list and appends at the tail;
this model keeps the queue reversed, popping and pushing at the head,
which is the same queue discipline.  none means the fuel ran out (shown
never to happen for the fuel below). -/
def floodAux (blocked : Finset Cell) :
    Nat → List Cell → Finset Cell → Option (Finset Cell)
  | _, [], visited => some visited
  | 0, _ :: _, _ => none
  | fuel + 1, c :: queue, visited =>
    let acc := DIRS.foldl (floodStep blocked c) (visited, queue)
    floodAux blocked fuel acc.2 acc.1

/-- Fuel that the sufficiency theorem proves is never exhausted:
grid size + 1. -/
def FLOOD_FUEL : Nat := 2401

/-- The source's flood fill from its initial singleton queue and visited
set. -/
def floodRun (start : Cell) (blocked : Finset Cell) : Option (Finset Cell) :=
  floodAux blocked FLOOD_FUEL [start] {start}

/-- The visited set computed by the source's flood fill. -/
def floodVisited (start : Cell) (blocked : Finset Cell) : Finset Cell :=
  (floodRun start blocked).getD {start}

/-- The source's flood_fill_count: the size of the visited set. -/
def flood_fill_count (start : Cell) (blocked : Finset Cell) : Nat :=
  (floodVisited start blocked).card

namespace Tron

/-- The Cycle dataclass of the source.  Creation inserts the starting
position into the trail; the alive flag is carried but never consulted by
the game logic. -/
structure Cycle where
  pos : Cell
  direction : Cell
  trail : Finset Cell
  alive : Bool
deriving DecidableEq

/-- Cycle construction: the trail starts as the singleton of the starting
position, as the source's post-init hook does. -/
def Cycle.make (p d : Cell) : Cycle :=
  { pos := p, direction := d, trail := {p}, alive := true }

/-- Cycle.next_pos with the default argument: one step along the current
heading. -/
def Cycle.nextPos (c : Cycle) : Cell :=
  (c.pos.1 + c.direction.1, c.pos.2 + c.direction.2)

/-- Cycle.next_pos with an explicit direction argument. -/
def Cycle.nextPosD (c : Cycle) (d : Cell) : Cell :=
  (c.pos.1 + d.1, c.pos.2 + d.2)

/-- Cycle.move: advance to the next position and add it to the trail. -/
def Cycle.move (c : Cycle) : Cycle :=
  { c with pos := c.nextPos, trail := insert c.nextPos c.trail }

/-- The game status values of the source's state string. -/
inductive GState
  | playing
  | win
  | lose
  | draw
deriving DecidableEq

/-- The observable game state: both cycles, the enemy agent's plan and
tick counter, the status, the win counter (score) and the frame counter. -/
structure Game where
  player : Cycle
  enemy : Cycle
  plan : List Cell
  ticks : Nat
  state : GState
  score : Nat
  frame : Nat
deriving DecidableEq

/-- TronGame.reset: player at left-center heading right, enemy at
right-center heading left, fresh agent state, score and frame zero. -/
def initGame : Game :=
  { player := Cycle.make (10, 20) (1, 0)
    enemy := Cycle.make (50, 20) (-1, 0)
    plan := []
    ticks := 0
    state := GState.playing
    score := 0
    frame := 0 }

/-- TronGame.handle_input for one requested direction: the request is
applied unless the current heading is its exact opposite (the source's
per-key guard), and the game state is never consulted. -/
def Game.handleInput (gm : Game) (r : Cell) : Game :=
  if gm.player.direction = opposite r then gm
  else { gm with player := { gm.player with direction := r } }

/-- EnemyAgent blocked set: union of the enemy trail and the player
trail. -/
def agentBlocked (gm : Game) : Finset Cell :=
  gm.enemy.trail ∪ gm.player.trail

/-- The loop body of EnemyAgent predict-player: step along the player's
heading, refusing steps that leave the grid. -/
def predictStep (d : Cell) (p : Cell) : Cell :=
  if inBoundsP (p.1 + d.1, p.2 + d.2) then (p.1 + d.1, p.2 + d.2) else p

/-- EnemyAgent predict-player: linear extrapolation of the player's
heading for a number of steps, clamped to the grid. -/
def predictPlayer (gm : Game) : Nat → Cell
  | 0 => gm.player.pos
  | n + 1 => predictStep gm.player.direction (predictPlayer gm n)

/-- The loop body of EnemyAgent survival-direction: skip the exact
reverse of the current heading, skip out-of-bounds or blocked next cells,
otherwise keep the direction of strictly greater flood-fill space. -/
def survStep (enemy : Cycle) (blocked : Finset Cell) (best : Cell × Int)
    (d : Cell) : Cell × Int :=
  if d = opposite enemy.direction then best
  else if ¬ inBoundsP (enemy.nextPosD d) then best
  else if enemy.nextPosD d ∈ blocked then best
  else if (flood_fill_count (enemy.nextPosD d)
      (insert (enemy.nextPosD d) blocked) : Int) > best.2 then
    (d, (flood_fill_count (enemy.nextPosD d)
      (insert (enemy.nextPosD d) blocked) : Int))
  else best

/-- EnemyAgent survival-direction: fold over DIRS keeping the first
direction of strictly greatest flood-fill space; the space accumulator
starts at the integer -1 as in the source. -/
def survivalDirection (enemy : Cycle) (blocked : Finset Cell) : Cell :=
  (DIRS.foldl (survStep enemy blocked) (enemy.direction, (-1 : Int))).1

/-- The result of EnemyAgent.decide: the chosen heading together with the
agent's mutated plan and tick counter. -/
structure Decision where
  dir : Cell
  plan : List Cell
  ticks : Nat
deriving DecidableEq

/-- EnemyAgent.decide: bump the tick counter, re-plan on the interval of 3
or when the plan is exhausted (A* to the predicted player cell, then to
the actual player cell), then follow the plan under the one-step safety
check, falling back to the survival direction. -/
def agentDecide (gm : Game) : Decision :=
  let ticks := gm.ticks + 1
  let blocked := agentBlocked gm
  let plan0 :=
    if ticks % 3 = 0 ∨ gm.plan = [] then
      match (match astar gm.enemy.pos (predictPlayer gm 5) blocked with
             | none => astar gm.enemy.pos gm.player.pos blocked
             | some p => some p) with
      | some p => if 1 < p.length then p.tail else []
      | none => []
    else gm.plan
  match plan0 with
  | [] => ⟨survivalDirection gm.enemy blocked, [], ticks⟩
  | nxt :: rest =>
    let chosen : Cell := (nxt.1 - gm.enemy.pos.1, nxt.2 - gm.enemy.pos.2)
    if gm.enemy.nextPosD chosen ∉ blocked ∧ inBoundsP (gm.enemy.nextPosD chosen) then
      ⟨chosen, rest, ticks⟩
    else ⟨survivalDirection gm.enemy blocked, rest, ticks⟩

/-- TronGame.update: no-op unless playing; otherwise ask the agent for the
enemy heading, evaluate both crash flags and the head-on flag against the
pre-move union of the trails, and resolve in the source's order: both
crash to draw, player crash or head-on to lose, enemy crash to win with a
score increment, else both cycles move and the frame counter advances. -/
def Game.update (gm : Game) : Game :=
  if gm.state ≠ GState.playing then gm
  else
    let dec := agentDecide gm
    let enemy1 : Cycle := { gm.enemy with direction := dec.dir }
    let gm1 : Game := { gm with enemy := enemy1, plan := dec.plan, ticks := dec.ticks }
    let blocked := gm1.player.trail ∪ gm1.enemy.trail
    let pn := gm1.player.nextPos
    let en := gm1.enemy.nextPos
    if (¬ inBoundsP pn ∨ pn ∈ blocked) ∧ (¬ inBoundsP en ∨ en ∈ blocked) then
      { gm1 with state := GState.draw }
    else if (¬ inBoundsP pn ∨ pn ∈ blocked) ∨ pn = en then
      { gm1 with state := GState.lose }
    else if ¬ inBoundsP en ∨ en ∈ blocked then
      { gm1 with state := GState.win, score := gm1.score + 1 }
    else
      { gm1 with player := gm1.player.move, enemy := gm1.enemy.move,
                 frame := gm1.frame + 1 }

end Tron

/-- One legal step of the search graph: a 4-adjacent target cell that is
in bounds and not blocked.  Only the target is constrained, exactly like
the neighbour checks of the source. -/
def stepOK (blocked : Finset Cell) (u v : Cell) : Prop :=
  (∃ d ∈ DIRS, v = (u.1 + d.1, u.2 + d.2)) ∧ inBoundsP v ∧ v ∉ blocked

/-- Existence of a walk of a given number of legal steps from the start
cell to a cell. -/
inductive ReachPath (blocked : Finset Cell) (s : Cell) : Cell → Nat → Prop
  | refl : ReachPath blocked s s 0
  | tail {u v : Cell} {n : Nat} :
      ReachPath blocked s u n → stepOK blocked u v → ReachPath blocked s v (n + 1)

/-- A valid path as a cell list: nonempty, beginning at the start cell,
ending at the goal cell, every consecutive pair a legal step. -/
def ValidPath (blocked : Finset Cell) (s g : Cell) (p : List Cell) : Prop :=
  p.head? = some s ∧ p.getLast? = some g ∧ List.Chain' (stepOK blocked) p

theorem validPath_singleton (blocked : Finset Cell) (s : Cell) :
    ValidPath blocked s s [s] := by
  refine ⟨rfl, rfl, ?_⟩
  simp

theorem validPath_ne_nil {blocked : Finset Cell} {s g : Cell} {p : List Cell}
    (h : ValidPath blocked s g p) : p ≠ [] := by
  intro hnil
  rw [hnil] at h
  simp [ValidPath] at h

theorem validPath_concat {blocked : Finset Cell} {s c v : Cell} {p : List Cell}
    (h : ValidPath blocked s c p) (hstep : stepOK blocked c v) :
    ValidPath blocked s v (p ++ [v]) := by
  obtain ⟨hh, hl, hc⟩ := h
  refine ⟨?_, ?_, ?_⟩
  · rw [List.head?_append_of_ne_nil]
    · exact hh
    · exact validPath_ne_nil ⟨hh, hl, hc⟩
  · exact List.getLast?_concat _
  · rw [List.chain'_append]
    refine ⟨hc, by simp, ?_⟩
    intro x hx y hy
    simp at hy
    rw [hl] at hx
    simp at hx
    rw [← hx, ← hy]
    exact hstep

theorem validPath_length_pos {blocked : Finset Cell} {s g : Cell}
    {p : List Cell} (h : ValidPath blocked s g p) : 1 ≤ p.length := by
  cases p with
  | nil => exact absurd rfl (validPath_ne_nil h)
  | cons a as => simp

/-- Any valid path list yields a walk of length edges from start to
goal. -/
theorem validPath_reachPath {blocked : Finset Cell} {s g : Cell}
    {p : List Cell} (h : ValidPath blocked s g p) :
    ReachPath blocked s g (p.length - 1) := by
  induction p using List.reverseRecOn generalizing g with
  | nil => exact absurd rfl (validPath_ne_nil h)
  | append_singleton init y ih =>
    obtain ⟨hh, hl, hc⟩ := h
    rw [List.getLast?_concat] at hl
    have hy : y = g := by simpa using hl
    subst hy
    cases init with
    | nil =>
      have hs : s = y := by simpa using hh.symm
      subst hs
      exact ReachPath.refl
    | cons a as =>
      rw [List.chain'_append] at hc
      obtain ⟨hc1, _, hlink⟩ := hc
      have hlast : (a :: as).getLast? = some ((a :: as).getLast (by simp)) :=
        List.getLast?_eq_getLast _ _
      have hstep : stepOK blocked ((a :: as).getLast (by simp)) y := by
        apply hlink
        · exact hlast
        · rfl
      have hvp : ValidPath blocked s ((a :: as).getLast (by simp)) (a :: as) := by
        refine ⟨?_, hlast, hc1⟩
        rw [List.head?_append_of_ne_nil] at hh
        · exact hh
        · simp
      have := (ih hvp).tail hstep
      simpa using this

/-- The Manhattan heuristic is consistent: one legal step changes it by at
most one. -/
theorem heuristic_consistent {blocked : Finset Cell} {u v : Cell}
    (goal : Cell) (h : stepOK blocked u v) :
    heuristic u goal ≤ heuristic v goal + 1 := by
  obtain ⟨⟨d, hd, hv⟩, _, _⟩ := h
  subst hv
  simp only [DIRS, List.mem_cons] at hd
  rcases hd with h | h | h | h | h <;> first
    | (subst h; unfold heuristic; simp; omega)
    | simp at h

/-- The heuristic along a walk: the start's heuristic is at most the walk
length plus the end's heuristic. -/
theorem heuristic_le_reach {blocked : Finset Cell} {s z : Cell} {n : Nat}
    (goal : Cell) (h : ReachPath blocked s z n) :
    heuristic s goal ≤ n + heuristic z goal := by
  induction h with
  | refl => omega
  | tail _ hstep ih =>
    have := heuristic_consistent goal hstep
    omega

/-- Frontier nodes are in bounds or equal to the search's start cell. -/
def nodeOK (s : Cell) (e : Entry) : Prop := inBoundsP e.node ∨ e.node = s

/-- Membership in the pushed entries of one expansion. -/
theorem mem_pushesOf {goal : Cell} {blocked closedNow : Finset Cell}
    {g : Nat} {path : List Cell} {c : Cell} {e : Entry} :
    e ∈ pushesOf goal blocked closedNow g path c ↔
      ∃ d ∈ DIRS, e = ⟨g + 1 + heuristic (c.1 + d.1, c.2 + d.2) goal, g + 1,
          (c.1 + d.1, c.2 + d.2), path ++ [(c.1 + d.1, c.2 + d.2)]⟩ ∧
        (c.1 + d.1, c.2 + d.2) ∉ closedNow ∧
        inBoundsP (c.1 + d.1, c.2 + d.2) ∧
        (c.1 + d.1, c.2 + d.2) ∉ blocked := by
  unfold pushesOf neighborsOf
  rw [List.mem_filterMap]
  constructor
  · rintro ⟨n, hn, hsome⟩
    rw [List.mem_map] at hn
    obtain ⟨d, hd, rfl⟩ := hn
    refine ⟨d, hd, ?_⟩
    split_ifs at hsome with h₁ h₂ h₃
    rw [Option.some_inj] at hsome
    exact ⟨hsome.symm, h₁, h₂, h₃⟩
  · rintro ⟨d, hd, rfl, h₁, h₂, h₃⟩
    refine ⟨(c.1 + d.1, c.2 + d.2), List.mem_map.mpr ⟨d, hd, rfl⟩, ?_⟩
    rw [if_neg h₁, if_neg (by simpa using h₂), if_neg h₃]

theorem pushesOf_length {goal : Cell} {blocked closedNow : Finset Cell}
    {g : Nat} {path : List Cell} {c : Cell} :
    (pushesOf goal blocked closedNow g path c).length ≤ 4 := by
  unfold pushesOf
  calc (List.filterMap _ (neighborsOf c)).length
      ≤ (neighborsOf c).length := List.length_filterMap_le _ _
    _ = 4 := by unfold neighborsOf DIRS; simp

/-- The A* loop never exhausts its fuel when the fuel dominates the
measure: frontier size plus five times the number of cells not yet
closed. -/
theorem astarAux_isSome (goal s : Cell) (blocked : Finset Cell) :
    ∀ fuel frontier closed,
      (∀ e ∈ frontier, nodeOK s e) →
      frontier.length + 5 * ((insert s gridCells) \ closed).card ≤ fuel →
      (astarAux goal blocked fuel frontier closed).isSome := by
  intro fuel
  induction fuel with
  | zero =>
    intro frontier closed _ hμ
    have hnil : frontier = [] := by
      cases frontier with
      | nil => rfl
      | cons a as => simp at hμ
    subst hnil
    rw [astarAux]
    simp [popMin_nil]
  | succ fuel ih =>
    intro frontier closed hok hμ
    rw [astarAux]
    cases hp : popMin frontier with
    | none => simp
    | some er =>
      obtain ⟨e, rest⟩ := er
      simp only
      have hmem : e ∈ frontier := popMin_mem hp
      have hlen : rest.length = frontier.length - 1 := popMin_rest_length hp
      have hfl : 1 ≤ frontier.length := by
        cases frontier with
        | nil => simp [popMin] at hp
        | cons a as => simp
      by_cases hgoal : e.node = goal
      · simp [hgoal]
      · rw [if_neg hgoal]
        by_cases hcl : e.node ∈ closed
        · rw [if_pos hcl]
          apply ih
          · intro x hx
            exact hok x (popMin_rest_subset hp hx)
          · omega
        · rw [if_neg hcl]
          apply ih
          · intro x hx
            rcases List.mem_append.mp hx with h | h
            · exact hok x (popMin_rest_subset hp h)
            · rw [mem_pushesOf] at h
              obtain ⟨d, _, rfl, _, hin, _⟩ := h
              exact Or.inl hin
          · have hnode : e.node ∈ insert s gridCells := by
              rcases hok e hmem with h | h
              · exact Finset.mem_insert_of_mem ((mem_gridCells _).mpr h)
              · rw [h]; exact Finset.mem_insert_self _ _
            have hsd : e.node ∈ (insert s gridCells) \ closed :=
              Finset.mem_sdiff.mpr ⟨hnode, hcl⟩
            have hcard : ((insert s gridCells) \ insert e.node closed).card =
                ((insert s gridCells) \ closed).card - 1 := by
              have : (insert s gridCells) \ insert e.node closed =
                  ((insert s gridCells) \ closed).erase e.node := by
                ext x
                simp only [Finset.mem_sdiff, Finset.mem_insert, Finset.mem_erase]
                tauto
              rw [this, Finset.card_erase_of_mem hsd]
            have hpos : 1 ≤ ((insert s gridCells) \ closed).card :=
              Finset.card_pos.mpr ⟨e.node, hsd⟩
            have hpl : (rest ++ pushesOf goal blocked (insert e.node closed)
                e.g e.path e.node).length ≤ rest.length + 4 := by
              rw [List.length_append]
              have := @pushesOf_length goal blocked (insert e.node closed)
                e.g e.path e.node
              omega
            omega

/-- The chosen A* fuel is always sufficient. -/
theorem astarRun_isSome (start goal : Cell) (blocked : Finset Cell) :
    (astarRun start goal blocked).isSome := by
  apply astarAux_isSome goal start blocked
  · intro e he
    simp at he
    rw [he]
    exact Or.inr rfl
  · have h1 : ((insert start gridCells) \ (∅ : Finset Cell)).card ≤ 2401 := by
      rw [Finset.sdiff_empty]
      calc (insert start gridCells).card ≤ gridCells.card + 1 :=
            Finset.card_insert_le _ _
        _ = 2401 := by rw [card_gridCells]
    simp only [List.length_singleton, ASTAR_FUEL]
    omega

/-- One flood-fill inner step preserves the loop measure: either nothing
changes, or the queue grows by one and the unvisited in-bounds cells
shrink by one. -/
theorem floodStep_measure (blocked : Finset Cell) (c : Cell)
    (acc : Finset Cell × List Cell) (d : Cell) :
    (floodStep blocked c acc d).2.length +
      (gridCells \ (floodStep blocked c acc d).1).card =
    acc.2.length + (gridCells \ acc.1).card := by
  unfold floodStep
  dsimp only
  split_ifs with h
  · obtain ⟨hnv, _, hin⟩ := h
    simp only [List.length_cons]
    have hmem : (c.1 + d.1, c.2 + d.2) ∈ gridCells \ acc.1 :=
      Finset.mem_sdiff.mpr ⟨(mem_gridCells _).mpr hin, hnv⟩
    have herase : gridCells \ insert (c.1 + d.1, c.2 + d.2) acc.1 =
        (gridCells \ acc.1).erase (c.1 + d.1, c.2 + d.2) := by
      ext x
      simp only [Finset.mem_sdiff, Finset.mem_insert, Finset.mem_erase]
      tauto
    rw [herase, Finset.card_erase_of_mem hmem]
    have hpos : 1 ≤ (gridCells \ acc.1).card :=
      Finset.card_pos.mpr ⟨_, hmem⟩
    omega
  · rfl

/-- The flood-fill inner fold preserves the loop measure. -/
theorem floodFold_measure (blocked : Finset Cell) (c : Cell) :
    ∀ (l : List Cell) (acc : Finset Cell × List Cell),
      (l.foldl (floodStep blocked c) acc).2.length +
        (gridCells \ (l.foldl (floodStep blocked c) acc).1).card =
      acc.2.length + (gridCells \ acc.1).card := by
  intro l
  induction l with
  | nil => intro acc; rfl
  | cons d ds ih =>
    intro acc
    rw [List.foldl_cons, ih]
    exact floodStep_measure blocked c acc d

/-- The flood-fill loop never exhausts its fuel when the fuel dominates
the measure: queue length plus number of unvisited in-bounds cells. -/
theorem floodAux_isSome (blocked : Finset Cell) :
    ∀ fuel queue visited,
      queue.length + (gridCells \ visited).card ≤ fuel →
      (floodAux blocked fuel queue visited).isSome := by
  intro fuel
  induction fuel with
  | zero =>
    intro queue visited h
    cases queue with
    | nil => simp [floodAux]
    | cons c rest => simp at h
  | succ fuel ih =>
    intro queue visited h
    cases queue with
    | nil => simp [floodAux]
    | cons c rest =>
      rw [floodAux]
      apply ih
      have := floodFold_measure blocked c DIRS (visited, rest)
      simp only at this
      rw [this]
      simp only [List.length_cons] at h
      omega

/-- The chosen flood-fill fuel is always sufficient. -/
theorem floodRun_isSome (start : Cell) (blocked : Finset Cell) :
    (floodRun start blocked).isSome := by
  apply floodAux_isSome
  have h1 : (gridCells \ ({start} : Finset Cell)).card ≤ 2400 := by
    calc (gridCells \ ({start} : Finset Cell)).card ≤ gridCells.card :=
          Finset.card_le_card (Finset.sdiff_subset)
      _ = 2400 := card_gridCells
  simp only [List.length_singleton, FLOOD_FUEL]
  omega

/-- The A* loop invariant.  sound: every frontier entry carries a valid
path of the recorded length and a consistent f value.  edgeCover: every
edge leaving the closed region is represented on the frontier by an entry
whose g is within one of the best walk to the edge's source.  startCover:
until the start is closed, its initial entry is on the frontier.
goalFree: the goal is never closed (the source returns before closing
it). -/
structure AState (s goal : Cell) (blocked : Finset Cell)
    (frontier : List Entry) (closed : Finset Cell) : Prop where
  sound : ∀ e ∈ frontier, ValidPath blocked s e.node e.path ∧
    e.path.length = e.g + 1 ∧ e.f = e.g + heuristic e.node goal
  edgeCover : ∀ u ∈ closed, ∀ v, stepOK blocked u v → v ∉ closed →
    ∃ e ∈ frontier, e.node = v ∧
      ∀ n, ReachPath blocked s u n → e.g ≤ n + 1
  startCover : s ∉ closed → ∃ e ∈ frontier, e.node = s ∧ e.g = 0
  goalFree : goal ∉ closed

/-- Any walk ending outside the closed region is matched by a frontier
entry whose f value does not exceed the walk length plus the endpoint's
heuristic. -/
theorem frontier_reach {s goal : Cell} {blocked : Finset Cell}
    {frontier : List Entry} {closed : Finset Cell}
    (hS : AState s goal blocked frontier closed) :
    ∀ z n, ReachPath blocked s z n → z ∉ closed →
      ∃ e ∈ frontier, e.f ≤ n + heuristic z goal := by
  intro z n hreach
  induction hreach with
  | refl =>
    intro hz
    obtain ⟨e, he, hnode, hg⟩ := hS.startCover hz
    refine ⟨e, he, ?_⟩
    have hsound := (hS.sound e he).2.2
    rw [hg, hnode] at hsound
    omega
  | tail hpath hstep ih =>
    intro hz
    rename_i u v n'
    by_cases hu : u ∈ closed
    · obtain ⟨e, he, hnode, hbound⟩ := hS.edgeCover u hu v hstep hz
      refine ⟨e, he, ?_⟩
      have hsound := (hS.sound e he).2.2
      rw [hnode] at hsound
      have := hbound _ hpath
      omega
    · obtain ⟨e, he, hf⟩ := ih hu
      refine ⟨e, he, ?_⟩
      have := heuristic_consistent goal hstep
      omega

/-- The g value of a popped entry whose node is not closed is at most the
length of any walk to that node (the key optimality fact). -/
theorem pop_g_le {s goal : Cell} {blocked : Finset Cell}
    {frontier rest : List Entry} {closed : Finset Cell} {e : Entry}
    (hS : AState s goal blocked frontier closed)
    (hp : popMin frontier = some (e, rest)) (hncl : e.node ∉ closed) :
    ∀ n, ReachPath blocked s e.node n → e.g ≤ n := by
  intro n hreach
  obtain ⟨e', he', hf⟩ := frontier_reach hS e.node n hreach hncl
  have hfle : e.f ≤ e'.f := entryLEb_f_le _ _ (popMin_le hp e' he')
  have hsound := (hS.sound e (popMin_mem hp)).2.2
  omega

/-- Skipping an already-closed popped entry preserves the invariant. -/
theorem AState_skip {s goal : Cell} {blocked : Finset Cell}
    {frontier rest : List Entry} {closed : Finset Cell} {e : Entry}
    (hS : AState s goal blocked frontier closed)
    (hp : popMin frontier = some (e, rest)) (hcl : e.node ∈ closed) :
    AState s goal blocked rest closed := by
  refine ⟨?_, ?_, ?_, hS.goalFree⟩
  · intro x hx
    exact hS.sound x (popMin_rest_subset hp hx)
  · intro u hu v hstep hv
    obtain ⟨e', he', hnode, hbound⟩ := hS.edgeCover u hu v hstep hv
    refine ⟨e', ?_, hnode, hbound⟩
    apply popMin_mem_rest hp he'
    intro heq
    rw [heq] at hnode
    exact hv (hnode ▸ hcl)
  · intro hs
    obtain ⟨e', he', hnode, hg⟩ := hS.startCover hs
    refine ⟨e', ?_, hnode, hg⟩
    apply popMin_mem_rest hp he'
    intro heq
    rw [heq] at hnode
    exact hs (hnode ▸ hcl)

/-- Expanding a popped entry preserves the invariant. -/
theorem AState_expand {s goal : Cell} {blocked : Finset Cell}
    {frontier rest : List Entry} {closed : Finset Cell} {e : Entry}
    (hS : AState s goal blocked frontier closed)
    (hp : popMin frontier = some (e, rest)) (hcl : e.node ∉ closed)
    (hgoal : e.node ≠ goal) :
    AState s goal blocked
      (rest ++ pushesOf goal blocked (insert e.node closed) e.g e.path e.node)
      (insert e.node closed) := by
  have hsound_e := hS.sound e (popMin_mem hp)
  refine ⟨?_, ?_, ?_, ?_⟩
  · intro x hx
    rcases List.mem_append.mp hx with h | h
    · exact hS.sound x (popMin_rest_subset hp h)
    · rw [mem_pushesOf] at h
      obtain ⟨d, hd, rfl, hncl, hin, hnb⟩ := h
      have hstep : stepOK blocked e.node (e.node.1 + d.1, e.node.2 + d.2) :=
        ⟨⟨d, hd, rfl⟩, hin, hnb⟩
      refine ⟨validPath_concat hsound_e.1 hstep, ?_, ?_⟩
      · simp [hsound_e.2.1]
      · simp
  · intro u hu v hstep hv
    rw [Finset.mem_insert] at hu
    rcases hu with hue | huc
    · subst hue
      obtain ⟨⟨d, hd, hveq⟩, hin, hnb⟩ := hstep
      subst hveq
      refine ⟨⟨e.g + 1 + heuristic (e.node.1 + d.1, e.node.2 + d.2) goal, e.g + 1,
        (e.node.1 + d.1, e.node.2 + d.2), e.path ++ [(e.node.1 + d.1, e.node.2 + d.2)]⟩,
        ?_, rfl, ?_⟩
      · apply List.mem_append_right
        rw [mem_pushesOf]
        exact ⟨d, hd, rfl, hv, hin, hnb⟩
      · intro n hreach
        have := pop_g_le hS hp hcl n hreach
        show e.g + 1 ≤ n + 1
        omega
    · have hvncl : v ∉ closed := fun h => hv (Finset.mem_insert_of_mem h)
      obtain ⟨e', he', hnode, hbound⟩ := hS.edgeCover u huc v hstep hvncl
      refine ⟨e', ?_, hnode, hbound⟩
      apply List.mem_append_left
      apply popMin_mem_rest hp he'
      intro heq
      rw [heq] at hnode
      exact hv (hnode ▸ Finset.mem_insert_self _ _)
  · intro hs
    rw [Finset.mem_insert] at hs
    push_neg at hs
    obtain ⟨hse, hsc⟩ := hs
    obtain ⟨e', he', hnode, hg⟩ := hS.startCover hsc
    refine ⟨e', ?_, hnode, hg⟩
    apply List.mem_append_left
    apply popMin_mem_rest hp he'
    intro heq
    rw [heq] at hnode
    exact hse hnode.symm
  · rw [Finset.mem_insert]
    push_neg
    exact ⟨fun h => hgoal h.symm, hS.goalFree⟩

/-- Any path returned by the A* loop from an invariant-satisfying state is
a valid path whose length is within one of any walk to the goal. -/
theorem astarAux_correct (s goal : Cell) (blocked : Finset Cell) :
    ∀ fuel frontier closed p, AState s goal blocked frontier closed →
      astarAux goal blocked fuel frontier closed = some (some p) →
      ValidPath blocked s goal p ∧
        ∀ n, ReachPath blocked s goal n → p.length ≤ n + 1 := by
  intro fuel
  induction fuel with
  | zero =>
    intro frontier closed p hS hres
    rw [astarAux] at hres
    cases hp : popMin frontier with
    | none => rw [hp] at hres; simp at hres
    | some er =>
      obtain ⟨e, rest⟩ := er
      rw [hp] at hres
      simp at hres
  | succ fuel ih =>
    intro frontier closed p hS hres
    rw [astarAux] at hres
    cases hp : popMin frontier with
    | none => rw [hp] at hres; simp at hres
    | some er =>
      obtain ⟨e, rest⟩ := er
      rw [hp] at hres
      dsimp only at hres
      by_cases hgoal : e.node = goal
      · rw [if_pos hgoal] at hres
        have hpeq : e.path = p := by simpa using hres
        have hsound := hS.sound e (popMin_mem hp)
        constructor
        · rw [← hpeq, ← hgoal]
          exact hsound.1
        · intro n hreach
          have hncl : e.node ∉ closed := by
            rw [hgoal]; exact hS.goalFree
          have hg := pop_g_le hS hp hncl n (by rw [hgoal]; exact hreach)
          rw [← hpeq, hsound.2.1]
          omega
      · rw [if_neg hgoal] at hres
        by_cases hcl : e.node ∈ closed
        · rw [if_pos hcl] at hres
          exact ih rest closed p (AState_skip hS hp hcl) hres
        · rw [if_neg hcl] at hres
          exact ih _ _ p (AState_expand hS hp hcl hgoal) hres

/-- The invariant holds for the initial A* state. -/
theorem AState_init (s goal : Cell) (blocked : Finset Cell) :
    AState s goal blocked [⟨heuristic s goal, 0, s, [s]⟩] ∅ := by
  refine ⟨?_, ?_, ?_, ?_⟩
  · intro e he
    simp at he
    rw [he]
    exact ⟨validPath_singleton blocked s, by simp, by simp⟩
  · intro u hu
    simp at hu
  · intro _
    exact ⟨_, List.mem_singleton_self _, rfl, rfl⟩
  · simp

theorem popMin_singleton (e : Entry) : popMin [e] = some (e, []) := by
  simp [popMin, listMinAux]

/-- One unfolding of the A* loop when the frontier pops an entry. -/
theorem astarAux_step (goal : Cell) (blocked : Finset Cell) (fuel : Nat)
    (frontier : List Entry) (closed : Finset Cell) (e : Entry)
    (rest : List Entry) (hp : popMin frontier = some (e, rest)) :
    astarAux goal blocked (fuel + 1) frontier closed =
      if e.node = goal then some (some e.path)
      else if e.node ∈ closed then astarAux goal blocked fuel rest closed
      else astarAux goal blocked fuel
        (rest ++ pushesOf goal blocked (insert e.node closed) e.g e.path e.node)
        (insert e.node closed) := by
  rw [astarAux, hp]

/-- astar with start equal to goal returns the singleton path at once,
whatever the blocked set holds. -/
theorem astar_self (g : Cell) (b : Finset Cell) : astar g g b = some [g] := by
  unfold astar astarRun
  have hN : ASTAR_FUEL = 12005 + 1 := rfl
  rw [hN, astarAux_step g b 12005 _ ∅ _ _ (popMin_singleton _)]
  rw [if_pos rfl]
  rfl

/-- When the goal is blocked it is never pushed, so no frontier whose
nodes all differ from the goal can ever return a path. -/
theorem astarAux_no_goal (goal : Cell) (b : Finset Cell) (hg : goal ∈ b) :
    ∀ fuel frontier closed, (∀ e ∈ frontier, e.node ≠ goal) →
      ∀ p, astarAux goal b fuel frontier closed ≠ some (some p) := by
  intro fuel
  induction fuel with
  | zero =>
    intro frontier closed hinv p hres
    rw [astarAux] at hres
    cases hp : popMin frontier with
    | none => rw [hp] at hres; simp at hres
    | some er =>
      obtain ⟨e, rest⟩ := er
      rw [hp] at hres
      simp at hres
  | succ fuel ih =>
    intro frontier closed hinv p hres
    cases hp : popMin frontier with
    | none => rw [astarAux, hp] at hres; simp at hres
    | some er =>
      obtain ⟨e, rest⟩ := er
      rw [astarAux_step _ _ _ _ _ _ _ hp] at hres
      rw [if_neg (hinv e (popMin_mem hp))] at hres
      by_cases hcl : e.node ∈ closed
      · rw [if_pos hcl] at hres
        exact ih rest closed (fun x hx => hinv x (popMin_rest_subset hp hx)) p hres
      · rw [if_neg hcl] at hres
        refine ih _ _ ?_ p hres
        intro x hx
        rcases List.mem_append.mp hx with h | h
        · exact hinv x (popMin_rest_subset hp h)
        · rw [mem_pushesOf] at h
          obtain ⟨d, hd, rfl, _, _, hnb⟩ := h
          show (e.node.1 + d.1, e.node.2 + d.2) ≠ goal
          intro heq
          rw [heq] at hnb
          exact hnb hg

/-- astar returns no path whenever the goal is distinct from the start
and blocked. -/
theorem astar_goal_blocked (s g : Cell) (b : Finset Cell) (hne : s ≠ g)
    (hgb : g ∈ b) : astar s g b = none := by
  have hinv : ∀ e ∈ [(⟨heuristic s g, 0, s, [s]⟩ : Entry)], e.node ≠ g := by
    intro e he
    simp at he
    rw [he]
    exact hne
  have h := astarAux_no_goal g b hgb ASTAR_FUEL
    [⟨heuristic s g, 0, s, [s]⟩] ∅ hinv
  unfold astar
  cases hr : astarRun s g b with
  | none => rfl
  | some o =>
    cases o with
    | none => rfl
    | some p =>
      unfold astarRun at hr
      exact absurd hr (h p)

/-- Erasing a cell of the closed set from the blocked set does not change
the pushed entries. -/
theorem pushesOf_erase (goal : Cell) (b : Finset Cell) (s : Cell)
    (closedNow : Finset Cell) (hs : s ∈ closedNow) (g : Nat)
    (path : List Cell) (c : Cell) :
    pushesOf goal (b.erase s) closedNow g path c =
      pushesOf goal b closedNow g path c := by
  unfold pushesOf
  apply List.filterMap_congr
  intro n _
  by_cases h1 : n ∈ closedNow
  · rw [if_pos h1, if_pos h1]
  · have hns : n ≠ s := fun he => h1 (he ▸ hs)
    rw [if_neg h1, if_neg h1]
    by_cases h2 : inBoundsP n
    · rw [if_neg (not_not_intro h2), if_neg (not_not_intro h2)]
      by_cases h3 : n ∈ b
      · rw [if_pos h3, if_pos (Finset.mem_erase_of_ne_of_mem hns h3)]
      · rw [if_neg h3, if_neg (fun hc => h3 (Finset.mem_of_mem_erase hc))]
    · rw [if_pos h2, if_pos h2]

/-- Once the start cell is closed, erasing it from the blocked set cannot
change the search. -/
theorem astarAux_erase (s goal : Cell) (b : Finset Cell) :
    ∀ fuel frontier closed, s ∈ closed →
      astarAux goal (b.erase s) fuel frontier closed =
        astarAux goal b fuel frontier closed := by
  intro fuel
  induction fuel with
  | zero =>
    intro frontier closed _
    rw [astarAux, astarAux]
  | succ fuel ih =>
    intro frontier closed hs
    cases hp : popMin frontier with
    | none => rw [astarAux, astarAux, hp]
    | some er =>
      obtain ⟨e, rest⟩ := er
      rw [astarAux_step _ _ _ _ _ _ _ hp, astarAux_step _ _ _ _ _ _ _ hp]
      by_cases hgoal : e.node = goal
      · rw [if_pos hgoal, if_pos hgoal]
      · rw [if_neg hgoal, if_neg hgoal]
        by_cases hcl : e.node ∈ closed
        · rw [if_pos hcl, if_pos hcl, ih rest closed hs]
        · rw [if_neg hcl, if_neg hcl,
            pushesOf_erase goal b s _ (Finset.mem_insert_of_mem hs),
            ih _ _ (Finset.mem_insert_of_mem hs)]

/-- Membership of the start cell in the blocked set is irrelevant to
astar: only neighbours are tested against the blocked set, and the start
is closed after its first expansion. -/
theorem astar_erase_start (s g : Cell) (b : Finset Cell) :
    astar s g b = astar s g (b.erase s) := by
  by_cases hg : s = g
  · subst hg
    rw [astar_self, astar_self]
  · unfold astar astarRun
    apply congrArg Option.join
    have hN : ASTAR_FUEL = 12005 + 1 := rfl
    rw [hN, astarAux_step g b 12005 _ ∅ _ _ (popMin_singleton _),
      astarAux_step g (b.erase s) 12005 _ ∅ _ _ (popMin_singleton _)]
    rw [if_neg hg, if_neg hg]
    rw [if_neg (Finset.not_mem_empty s), if_neg (Finset.not_mem_empty s)]
    rw [pushesOf_erase g b s _ (Finset.mem_insert_self _ _),
      astarAux_erase s g b _ _ _ (Finset.mem_insert_self _ _)]

/-- Claim C2: pathfinder optimality.  For every start, goal and blocked
set, when astar returns a path, that path is a valid path over
4-connected, in-bounds, non-blocked steps from start to goal, and no
strictly shorter such path exists. -/
theorem astar_shortest (start goal : Cell) (blocked : Finset Cell)
    (p : List Cell) (h : astar start goal blocked = some p) :
    ValidPath blocked start goal p ∧
      ∀ q, ValidPath blocked start goal q → p.length ≤ q.length := by
  have hrun : astarAux goal blocked ASTAR_FUEL
      [⟨heuristic start goal, 0, start, [start]⟩] ∅ = some (some p) := by
    unfold astar astarRun at h
    cases hr : astarAux goal blocked ASTAR_FUEL
        [⟨heuristic start goal, 0, start, [start]⟩] ∅ with
    | none => rw [hr] at h; simp at h
    | some o =>
      cases o with
      | none => rw [hr] at h; simp at h
      | some q =>
        rw [hr] at h
        simp at h
        rw [← h]
  obtain ⟨hvalid, hbound⟩ := astarAux_correct start goal blocked ASTAR_FUEL
    _ _ p (AState_init start goal blocked) hrun
  refine ⟨hvalid, ?_⟩
  intro q hq
  have h1 := hbound (q.length - 1) (validPath_reachPath hq)
  have h2 := validPath_length_pos hq
  omega

/-- Witness for astar_shortest: on the empty blocked set, the two-cell
path from (0,0) to (1,0) is returned and is shortest. -/
theorem astar_shortest_witness :
    ValidPath ∅ (0, 0) (1, 0) [(0, 0), (1, 0)] ∧
      ∀ q, ValidPath ∅ (0, 0) (1, 0) q →
        ([(0, 0), (1, 0)] : List Cell).length ≤ q.length :=
  astar_shortest (0, 0) (1, 0) ∅ [(0, 0), (1, 0)] (by decide)

/-- Claim C6: degenerate-start behaviour.  astar with start equal to goal
returns the singleton path whatever the blocked set is (so also when the
start is blocked), and membership of the start in the blocked set never
changes the result: only neighbours are tested against the blocked
set. -/
theorem astar_degenerate_start :
    (∀ goal blocked, astar goal goal blocked = some [goal]) ∧
    (∀ start goal blocked,
      astar start goal blocked = astar start goal (blocked.erase start)) :=
  ⟨astar_self, astar_erase_start⟩

/-- Claim C9: termination.  The A* loop and the flood-fill loop never
exhaust their fuel, for every start, goal and obstacle configuration on
the finite grid, so both functions compute their result in finitely many
steps. -/
theorem search_termination :
    (∀ start goal blocked, (astarRun start goal blocked).isSome) ∧
    (∀ start blocked, (floodRun start blocked).isSome) :=
  ⟨astarRun_isSome, floodRun_isSome⟩

/-- Claim C10: a goal that is distinct from the start and lies in the
blocked set is never enqueued, so astar returns none; consequently, when
the replan branch runs and the primary search fails, the agent's fallback
search toward the player's actual position (a cell inside the player's
trail and hence inside the blocked set) leaves the plan empty. -/
theorem astar_blocked_goal_no_plan :
    (∀ start goal blocked, start ≠ goal → goal ∈ blocked →
      astar start goal blocked = none) ∧
    (∀ gm : Tron.Game, ((gm.ticks + 1) % 3 = 0 ∨ gm.plan = []) →
      gm.player.pos ∈ gm.player.trail →
      astar gm.enemy.pos (Tron.predictPlayer gm 5) (Tron.agentBlocked gm) = none →
      (Tron.agentDecide gm).plan = []) := by
  constructor
  · intro s g b hne hgb
    exact astar_goal_blocked s g b hne hgb
  · intro gm hcond hpos hprimary
    have hpb : gm.player.pos ∈ Tron.agentBlocked gm := by
      unfold Tron.agentBlocked
      exact Finset.mem_union_right _ hpos
    unfold Tron.agentDecide
    dsimp only
    rw [if_pos hcond, hprimary]
    by_cases he : gm.enemy.pos = gm.player.pos
    · rw [he, astar_self]
      rfl
    · rw [astar_goal_blocked _ _ _ he hpb]

/-- A boxed-in state used to exercise the fallback branch: the enemy sits
at the corner with both exits in its own trail, so both searches fail. -/
def gmC10 : Tron.Game :=
  { player := ⟨(5, 5), (1, 0), {(5, 5)}, true⟩
    enemy := ⟨(0, 0), (-1, 0), {(0, 0), (1, 0), (0, 1)}, true⟩
    plan := []
    ticks := 0
    state := Tron.GState.playing
    score := 0
    frame := 0 }

/-- Witness for astar_blocked_goal_no_plan at the boxed-in state. -/
theorem astar_blocked_goal_no_plan_witness :
    ((gmC10.ticks + 1) % 3 = 0 ∨ gmC10.plan = []) ∧
    gmC10.player.pos ∈ gmC10.player.trail ∧
    astar gmC10.enemy.pos (Tron.predictPlayer gmC10 5) (Tron.agentBlocked gmC10) = none ∧
    (Tron.agentDecide gmC10).plan = [] :=
  ⟨by decide, by decide, by decide,
    astar_blocked_goal_no_plan.2 gmC10 (by decide) (by decide) (by decide)⟩

/-- The flood-fill loop invariant.  Every queued cell is visited, every
visited cell is reachable, and every visited cell is queued or has all
its legal successors visited; the start is visited from the outset. -/
structure FState (blocked : Finset Cell) (s : Cell) (queue : List Cell)
    (visited : Finset Cell) : Prop where
  queue_vis : ∀ c ∈ queue, c ∈ visited
  vis_reach : ∀ c ∈ visited, Relation.ReflTransGen (stepOK blocked) s c
  closed_or_queued : ∀ c ∈ visited, c ∈ queue ∨
    ∀ v, stepOK blocked c v → v ∈ visited
  start_vis : s ∈ visited

theorem floodStep_vis_mono (blocked : Finset Cell) (c : Cell)
    (acc : Finset Cell × List Cell) (d : Cell) :
    acc.1 ⊆ (floodStep blocked c acc d).1 := by
  unfold floodStep
  dsimp only
  split_ifs with h
  · exact Finset.subset_insert _ _
  · exact Finset.Subset.refl _

theorem floodFold_vis_mono (blocked : Finset Cell) (c : Cell) :
    ∀ (l : List Cell) (acc : Finset Cell × List Cell),
      acc.1 ⊆ (l.foldl (floodStep blocked c) acc).1 := by
  intro l
  induction l with
  | nil => intro acc; exact Finset.Subset.refl _
  | cons d ds ih =>
    intro acc
    rw [List.foldl_cons]
    exact (floodStep_vis_mono blocked c acc d).trans (ih _)

theorem floodFold_queue_sub (blocked : Finset Cell) (c : Cell) :
    ∀ (l : List Cell) (acc : Finset Cell × List Cell),
      ∀ x ∈ acc.2, x ∈ (l.foldl (floodStep blocked c) acc).2 := by
  intro l
  induction l with
  | nil => intro acc x hx; exact hx
  | cons d ds ih =>
    intro acc x hx
    rw [List.foldl_cons]
    apply ih
    unfold floodStep
    dsimp only
    split_ifs with h
    · exact List.mem_cons_of_mem _ hx
    · exact hx

theorem floodFold_queue_vis (blocked : Finset Cell) (c : Cell) :
    ∀ (l : List Cell) (acc : Finset Cell × List Cell),
      (∀ x ∈ acc.2, x ∈ acc.1) →
      ∀ x ∈ (l.foldl (floodStep blocked c) acc).2,
        x ∈ (l.foldl (floodStep blocked c) acc).1 := by
  intro l
  induction l with
  | nil => intro acc h x hx; exact h x hx
  | cons d ds ih =>
    intro acc h x hx
    rw [List.foldl_cons] at hx ⊢
    refine ih _ ?_ x hx
    unfold floodStep
    dsimp only
    split_ifs with hc
    · intro y hy
      rcases List.mem_cons.mp hy with hy | hy
      · rw [hy]; exact Finset.mem_insert_self _ _
      · exact Finset.mem_insert_of_mem (h y hy)
    · exact h

theorem floodFold_new_vis (blocked : Finset Cell) (c : Cell) :
    ∀ (l : List Cell), (∀ d ∈ l, d ∈ DIRS) →
      ∀ (acc : Finset Cell × List Cell),
      ∀ x ∈ (l.foldl (floodStep blocked c) acc).1,
        x ∈ acc.1 ∨ stepOK blocked c x := by
  intro l
  induction l with
  | nil => intro _ acc x hx; exact Or.inl hx
  | cons d ds ih =>
    intro hl acc x hx
    rw [List.foldl_cons] at hx
    rcases ih (fun e he => hl e (List.mem_cons_of_mem _ he)) _ x hx with h | h
    · revert h
      unfold floodStep
      dsimp only
      split_ifs with hc
      · intro h
        rcases Finset.mem_insert.mp h with h | h
        · right
          obtain ⟨_, hnb, hin⟩ := hc
          exact h ▸ ⟨⟨d, hl d (List.mem_cons_self _ _), rfl⟩, hin, hnb⟩
        · exact Or.inl h
      · exact Or.inl
    · exact Or.inr h

theorem floodFold_new_queued (blocked : Finset Cell) (c : Cell) :
    ∀ (l : List Cell) (acc : Finset Cell × List Cell),
      ∀ x ∈ (l.foldl (floodStep blocked c) acc).1,
        x ∈ acc.1 ∨ x ∈ (l.foldl (floodStep blocked c) acc).2 := by
  intro l
  induction l with
  | nil => intro acc x hx; exact Or.inl hx
  | cons d ds ih =>
    intro acc x hx
    rw [List.foldl_cons] at hx ⊢
    rcases ih _ x hx with h | h
    · revert h
      unfold floodStep
      dsimp only
      split_ifs with hc
      · intro h
        rcases Finset.mem_insert.mp h with h | h
        · right
          apply floodFold_queue_sub
          rw [h]
          exact List.mem_cons_self _ _
        · exact Or.inl h
      · exact Or.inl
    · exact Or.inr h

theorem floodFold_complete (blocked : Finset Cell) (c : Cell) :
    ∀ (l : List Cell) (acc : Finset Cell × List Cell),
      ∀ d ∈ l, (c.1 + d.1, c.2 + d.2) ∉ blocked →
        inBoundsP (c.1 + d.1, c.2 + d.2) →
        (c.1 + d.1, c.2 + d.2) ∈ (l.foldl (floodStep blocked c) acc).1 := by
  intro l
  induction l with
  | nil => intro acc d hd; simp at hd
  | cons d' ds ih =>
    intro acc d hd hnb hin
    rw [List.foldl_cons]
    rcases List.mem_cons.mp hd with hd | hd
    · subst hd
      apply floodFold_vis_mono
      unfold floodStep
      dsimp only
      split_ifs with hc
      · exact Finset.mem_insert_self _ _
      · rw [not_and_or, not_and_or] at hc
        rcases hc with hc | hc | hc
        · exact Decidable.not_not.mp hc
        · exact absurd hnb hc
        · exact absurd hin hc
    · exact ih _ d hd hnb hin

/-- The flood-fill loop computes exactly the reflexive-transitive closure
of the legal-step relation from the start. -/
theorem floodAux_correct (blocked : Finset Cell) (s : Cell) :
    ∀ fuel queue visited res, FState blocked s queue visited →
      floodAux blocked fuel queue visited = some res →
      ∀ c, c ∈ res ↔ Relation.ReflTransGen (stepOK blocked) s c := by
  have hfinal : ∀ (visited : Finset Cell), FState blocked s [] visited →
      ∀ c, c ∈ visited ↔ Relation.ReflTransGen (stepOK blocked) s c := by
    intro visited hS c
    constructor
    · exact hS.vis_reach c
    · intro hreach
      induction hreach with
      | refl => exact hS.start_vis
      | tail hr hstep ih =>
        rename_i u v
        rcases hS.closed_or_queued u ih with h | h
        · simp at h
        · exact h v hstep
  intro fuel
  induction fuel with
  | zero =>
    intro queue visited res hS hres
    cases queue with
    | nil =>
      rw [floodAux] at hres
      rw [Option.some_inj] at hres
      rw [← hres]
      exact hfinal visited hS
    | cons c rest => rw [floodAux] at hres; simp at hres
  | succ fuel ih =>
    intro queue visited res hS hres
    cases queue with
    | nil =>
      rw [floodAux] at hres
      rw [Option.some_inj] at hres
      rw [← hres]
      exact hfinal visited hS
    | cons c rest =>
      rw [floodAux] at hres
      have hcvis : c ∈ visited := hS.queue_vis c (List.mem_cons_self _ _)
      have hcreach : Relation.ReflTransGen (stepOK blocked) s c :=
        hS.vis_reach c hcvis
      have hrestvis : ∀ x ∈ rest, x ∈ visited :=
        fun x hx => hS.queue_vis x (List.mem_cons_of_mem _ hx)
      refine ih _ _ res ?_ hres
      refine ⟨?_, ?_, ?_, ?_⟩
      · exact floodFold_queue_vis blocked c DIRS (visited, rest) hrestvis
      · intro x hx
        rcases floodFold_new_vis blocked c DIRS (fun d hd => hd)
            (visited, rest) x hx with h | h
        · exact hS.vis_reach x h
        · exact hcreach.tail h
      · intro x hx
        rcases floodFold_new_queued blocked c DIRS (visited, rest) x hx with h | h
        · by_cases hxc : x = c
          · subst hxc
            right
            intro v hstep
            obtain ⟨⟨d, hd, hveq⟩, hin, hnb⟩ := hstep
            rw [hveq]
            exact floodFold_complete blocked x DIRS (visited, rest) d hd
              (hveq ▸ hnb) (hveq ▸ hin)
          · rcases hS.closed_or_queued x h with hq | hcl
            · rcases List.mem_cons.mp hq with hq | hq
              · exact absurd hq hxc
              · exact Or.inl (floodFold_queue_sub blocked c DIRS (visited, rest) x hq)
            · right
              intro v hstep
              exact floodFold_vis_mono blocked c DIRS (visited, rest) (hcl v hstep)
        · exact Or.inl h
      · exact floodFold_vis_mono blocked c DIRS (visited, rest) hS.start_vis

/-- The invariant holds for the initial flood-fill state. -/
theorem FState_init (blocked : Finset Cell) (s : Cell) :
    FState blocked s [s] {s} := by
  refine ⟨?_, ?_, ?_, ?_⟩
  · intro c hc
    simp at hc
    simp [hc]
  · intro c hc
    simp at hc
    rw [hc]
  · intro c hc
    simp at hc
    simp [hc]
  · simp

/-- Claim C8: reachability evaluator exactness.  The flood fill's visited
set is exactly the set of cells reachable from the start through
4-connected, in-bounds, non-blocked steps (the start included), and
flood_fill_count is the cardinality of that closure; the closure is
defined without reference to any traversal order, so the count is
traversal-order independent. -/
theorem flood_fill_exact (start : Cell) (blocked : Finset Cell) :
    (∀ c, c ∈ floodVisited start blocked ↔
      Relation.ReflTransGen (stepOK blocked) start c) ∧
    flood_fill_count start blocked =
      Set.ncard {c | Relation.ReflTransGen (stepOK blocked) start c} := by
  obtain ⟨res, hres⟩ := Option.isSome_iff_exists.mp (floodRun_isSome start blocked)
  have hchar := floodAux_correct blocked start FLOOD_FUEL [start] {start} res
    (FState_init blocked start) hres
  have hvis : floodVisited start blocked = res := by
    unfold floodVisited floodRun
    unfold floodRun at hres
    rw [hres]
    rfl
  constructor
  · intro c
    rw [hvis]
    exact hchar c
  · unfold flood_fill_count
    rw [hvis]
    have hset : {c | Relation.ReflTransGen (stepOK blocked) start c} =
        (res : Set Cell) := by
      ext c
      simp only [Set.mem_setOf_eq, Finset.coe_sort_coe, Finset.mem_coe]
      exact (hchar c).symm
    rw [hset, Set.ncard_coe_Finset]

namespace Tron

/-- The safety condition of one survival candidate: not the exact reverse
of the current heading, next cell in bounds and not blocked.  This is the
condition the claim describes; the characterisation theorem relates the
source's fold to it. -/
def survPred (enemy : Cycle) (blocked : Finset Cell) (d : Cell) : Prop :=
  d ≠ opposite enemy.direction ∧ inBoundsP (enemy.nextPosD d) ∧
    enemy.nextPosD d ∉ blocked

instance (enemy : Cycle) (blocked : Finset Cell) (d : Cell) :
    Decidable (survPred enemy blocked d) := by
  unfold survPred; infer_instance

/-- The flood-fill space a candidate direction is ranked by. -/
def survSpace (enemy : Cycle) (blocked : Finset Cell) (d : Cell) : Int :=
  (flood_fill_count (enemy.nextPosD d) (insert (enemy.nextPosD d) blocked) : Int)

/-- The candidate directions of the survival fallback in enumeration
order: the members of DIRS, in order, that satisfy the safety
condition. -/
def survivalCands (enemy : Cycle) (blocked : Finset Cell) : List Cell :=
  DIRS.filter (fun d => decide (survPred enemy blocked d))

theorem survStep_eq (enemy : Cycle) (blocked : Finset Cell)
    (best : Cell × Int) (d : Cell) :
    survStep enemy blocked best d =
      if survPred enemy blocked d then
        (if survSpace enemy blocked d > best.2 then
          (d, survSpace enemy blocked d) else best)
      else best := by
  unfold survStep survPred survSpace
  by_cases h₁ : d = opposite enemy.direction
  · simp [h₁]
  · by_cases h₂ : inBoundsP (enemy.nextPosD d)
    · by_cases h₃ : enemy.nextPosD d ∈ blocked
      · simp [h₁, h₂, h₃]
      · simp [h₁, h₂, h₃]
    · simp [h₁, h₂]

theorem survSpace_nonneg (enemy : Cycle) (blocked : Finset Cell) (d : Cell) :
    0 ≤ survSpace enemy blocked d := by
  unfold survSpace
  exact Int.ofNat_nonneg _

/-- The survival fold either keeps its accumulator or moves to a
candidate of strictly greater space. -/
theorem survFold_keep_or_cand (enemy : Cycle) (blocked : Finset Cell) :
    ∀ (l : List Cell) (best : Cell × Int),
      best.2 ≤ (l.foldl (survStep enemy blocked) best).2 ∧
      ((l.foldl (survStep enemy blocked) best) = best ∨
        ((l.foldl (survStep enemy blocked) best).1 ∈ l ∧
          survPred enemy blocked (l.foldl (survStep enemy blocked) best).1 ∧
          (l.foldl (survStep enemy blocked) best).2 =
            survSpace enemy blocked (l.foldl (survStep enemy blocked) best).1 ∧
          best.2 < (l.foldl (survStep enemy blocked) best).2)) := by
  intro l
  induction l with
  | nil => intro best; exact ⟨le_refl _, Or.inl rfl⟩
  | cons d ds ih =>
    intro best
    rw [List.foldl_cons]
    have hstep : best.2 ≤ (survStep enemy blocked best d).2 ∧
        ((survStep enemy blocked best d) = best ∨
          (survPred enemy blocked d ∧ (survStep enemy blocked best d).1 = d ∧
            (survStep enemy blocked best d).2 = survSpace enemy blocked d ∧
            best.2 < (survStep enemy blocked best d).2)) := by
      rw [survStep_eq]
      by_cases h₁ : survPred enemy blocked d
      · rw [if_pos h₁]
        by_cases h₂ : survSpace enemy blocked d > best.2
        · rw [if_pos h₂]
          exact ⟨le_of_lt h₂, Or.inr ⟨h₁, rfl, rfl, h₂⟩⟩
        · rw [if_neg h₂]
          exact ⟨le_refl _, Or.inl rfl⟩
      · rw [if_neg h₁]
        exact ⟨le_refl _, Or.inl rfl⟩
    obtain ⟨hmono, hih⟩ := ih (survStep enemy blocked best d)
    refine ⟨le_trans hstep.1 hmono, ?_⟩
    rcases hih with heq | ⟨hmem, hpred, hspace, hlt⟩
    · rw [heq]
      rcases hstep.2 with h | ⟨hpred, hfst, hsnd, hlt⟩
      · exact Or.inl h
      · refine Or.inr ⟨?_, ?_, ?_, hlt⟩
        · rw [hfst]; exact List.mem_cons_self _ _
        · rw [hfst]; exact hpred
        · rw [hsnd, hfst]
    · exact Or.inr ⟨List.mem_cons_of_mem _ hmem, hpred, hspace,
        lt_of_le_of_lt hstep.1 hlt⟩

/-- Every candidate's space is dominated by the survival fold's final
accumulator. -/
theorem survFold_max (enemy : Cycle) (blocked : Finset Cell) :
    ∀ (l : List Cell) (best : Cell × Int), ∀ d ∈ l,
      survPred enemy blocked d →
      survSpace enemy blocked d ≤ (l.foldl (survStep enemy blocked) best).2 := by
  intro l
  induction l with
  | nil => intro best d hd; simp at hd
  | cons d' ds ih =>
    intro best d hd hpred
    rw [List.foldl_cons]
    rcases List.mem_cons.mp hd with hd | hd
    · subst hd
      have hmono := (survFold_keep_or_cand enemy blocked ds
        (survStep enemy blocked best d)).1
      have hstep : survSpace enemy blocked d ≤ (survStep enemy blocked best d).2 := by
        rw [survStep_eq, if_pos hpred]
        by_cases h₂ : survSpace enemy blocked d > best.2
        · rw [if_pos h₂]
        · rw [if_neg h₂]
          omega
      exact le_trans hstep hmono
    · exact ih _ d hd hpred

/-- When the survival fold strictly improves on its accumulator, its
result is the earliest candidate achieving the final space: every earlier
candidate has strictly smaller space. -/
theorem survFold_first (enemy : Cycle) (blocked : Finset Cell) :
    ∀ (l : List Cell) (best : Cell × Int),
      best.2 < (l.foldl (survStep enemy blocked) best).2 →
      ∃ l1 l2, l.filter (fun d => decide (survPred enemy blocked d)) =
          l1 ++ (l.foldl (survStep enemy blocked) best).1 :: l2 ∧
        ∀ d ∈ l1, survSpace enemy blocked d <
          (l.foldl (survStep enemy blocked) best).2 := by
  intro l
  induction l with
  | nil => intro best h; simp at h
  | cons d ds ih =>
    intro best hlt
    rw [List.foldl_cons] at hlt ⊢
    by_cases hpred : survPred enemy blocked d
    · have hfilter : (d :: ds).filter (fun d => decide (survPred enemy blocked d)) =
          d :: ds.filter (fun d => decide (survPred enemy blocked d)) := by
        simp [List.filter_cons, hpred]
      rw [hfilter]
      by_cases h₂ : survSpace enemy blocked d > best.2
      · have hb' : survStep enemy blocked best d = (d, survSpace enemy blocked d) := by
          rw [survStep_eq, if_pos hpred, if_pos h₂]
        rcases (survFold_keep_or_cand enemy blocked ds
            (survStep enemy blocked best d)).2 with heq | ⟨_, _, _, hlt'⟩
        · refine ⟨[], ds.filter (fun d => decide (survPred enemy blocked d)),
            ?_, ?_⟩
          · rw [heq, hb']
            rfl
          · intro x hx
            simp at hx
        · obtain ⟨l1, l2, hsplit, hl1⟩ := ih (survStep enemy blocked best d) hlt'
          refine ⟨d :: l1, l2, ?_, ?_⟩
          · rw [hsplit]
            rfl
          · intro x hx
            rcases List.mem_cons.mp hx with hx | hx
            · subst hx
              have : survSpace enemy blocked x = (survStep enemy blocked best x).2 := by
                rw [hb']
              omega
            · exact hl1 x hx
      · have hb' : survStep enemy blocked best d = best := by
          rw [survStep_eq, if_pos hpred, if_neg h₂]
        rw [hb'] at hlt ⊢
        obtain ⟨l1, l2, hsplit, hl1⟩ := ih best hlt
        refine ⟨d :: l1, l2, ?_, ?_⟩
        · rw [hsplit]
          rfl
        · intro x hx
          rcases List.mem_cons.mp hx with hx | hx
          · subst hx
            omega
          · exact hl1 x hx
    · have hb' : survStep enemy blocked best d = best := by
        rw [survStep_eq, if_neg hpred]
      rw [hb'] at hlt ⊢
      have hfilter : (d :: ds).filter (fun d => decide (survPred enemy blocked d)) =
          ds.filter (fun d => decide (survPred enemy blocked d)) := by
        simp [List.filter_cons, hpred]
      rw [hfilter]
      exact ih best hlt

end Tron

namespace Tron

/-- Claim C3: survival fallback selection.  The candidates are the
members of DIRS in order (Up, Down, Left, Right) that are not the exact
reverse of the current heading and whose next cell is in bounds and not
blocked.  With no candidate the current heading is returned unchanged;
otherwise the returned direction is a candidate, every earlier candidate
has strictly smaller flood-fill space, and every later candidate has no
greater flood-fill space (the first-seen maximum wins). -/
theorem survival_fallback_spec (enemy : Cycle) (blocked : Finset Cell) :
    (survivalCands enemy blocked = [] →
      survivalDirection enemy blocked = enemy.direction) ∧
    (survivalCands enemy blocked ≠ [] →
      ∃ l1 l2, survivalCands enemy blocked =
          l1 ++ survivalDirection enemy blocked :: l2 ∧
        (∀ d ∈ l1, survSpace enemy blocked d <
          survSpace enemy blocked (survivalDirection enemy blocked)) ∧
        (∀ d ∈ l2, survSpace enemy blocked d ≤
          survSpace enemy blocked (survivalDirection enemy blocked))) := by
  constructor
  · intro hnil
    unfold survivalDirection
    rcases (survFold_keep_or_cand enemy blocked DIRS
        (enemy.direction, -1)).2 with heq | ⟨hmem, hpred, _, _⟩
    · rw [heq]
    · exfalso
      have hin : (DIRS.foldl (survStep enemy blocked) (enemy.direction, -1)).1 ∈
          survivalCands enemy blocked := by
        unfold survivalCands
        rw [List.mem_filter]
        exact ⟨hmem, by simpa using hpred⟩
      rw [hnil] at hin
      simp at hin
  · intro hne
    obtain ⟨d0, hd0⟩ := List.exists_mem_of_ne_nil _ hne
    have hd0mem : d0 ∈ DIRS ∧ survPred enemy blocked d0 := by
      unfold survivalCands at hd0
      rw [List.mem_filter] at hd0
      exact ⟨hd0.1, by simpa using hd0.2⟩
    have hmax0 := survFold_max enemy blocked DIRS
      (enemy.direction, -1) d0 hd0mem.1 hd0mem.2
    have hnn := survSpace_nonneg enemy blocked d0
    have hstrict : ((enemy.direction, (-1 : Int))).2 <
        (DIRS.foldl (survStep enemy blocked) (enemy.direction, -1)).2 := by
      show (-1 : Int) < _
      omega
    obtain ⟨l1, l2, hsplit, hl1⟩ := survFold_first enemy blocked DIRS
      (enemy.direction, -1) hstrict
    rcases (survFold_keep_or_cand enemy blocked DIRS
        (enemy.direction, -1)).2 with heq | ⟨_, _, hspace, _⟩
    · rw [heq] at hstrict
      exact absurd hstrict (lt_irrefl _)
    · refine ⟨l1, l2, ?_, ?_, ?_⟩
      · unfold survivalCands survivalDirection
        exact hsplit
      · intro d hd
        unfold survivalDirection
        rw [← hspace]
        exact hl1 d hd
      · intro d hd
        have hdc : d ∈ DIRS.filter (fun d => decide (survPred enemy blocked d)) := by
          rw [hsplit]
          exact List.mem_append_right _ (List.mem_cons_of_mem _ hd)
        rw [List.mem_filter] at hdc
        unfold survivalDirection
        rw [← hspace]
        exact survFold_max enemy blocked DIRS (enemy.direction, -1) d hdc.1
          (by simpa using hdc.2)

/-- A cycle and obstacle set with two tied candidates, exercising the
first-seen tie-break. -/
def eC3 : Cycle := Cycle.make (0, 0) (1, 0)

/-- Walls that confine the 2 x 2 corner region around eC3. -/
def bC3 : Finset Cell := {(0, 0), (2, 0), (2, 1), (2, 2), (0, 2), (1, 2)}

/-- Witness for survival_fallback_spec on the confined corner state. -/
theorem survival_fallback_spec_witness :
    ∃ l1 l2, survivalCands eC3 bC3 =
        l1 ++ survivalDirection eC3 bC3 :: l2 ∧
      (∀ d ∈ l1, survSpace eC3 bC3 d <
        survSpace eC3 bC3 (survivalDirection eC3 bC3)) ∧
      (∀ d ∈ l2, survSpace eC3 bC3 d ≤
        survSpace eC3 bC3 (survivalDirection eC3 bC3)) :=
  (survival_fallback_spec eC3 bC3).2 (by decide)

end Tron

theorem opposite_opposite (d : Cell) : opposite (opposite d) = d := by
  unfold opposite
  simp

theorem opposite_ne_self_of_mem (d : Cell) (hd : d ∈ DIRS) :
    opposite d ≠ d := by
  fin_cases hd <;> decide

namespace Tron

/-- The player crash flag of the tick resolver: next cell out of bounds
or in the pre-move union of the trails. -/
def pCrash (gm : Game) : Prop :=
  ¬ inBoundsP gm.player.nextPos ∨
    gm.player.nextPos ∈ gm.player.trail ∪ gm.enemy.trail

/-- The enemy crash flag of the tick resolver, for the decided heading:
next cell out of bounds or in the pre-move union of the trails. -/
def eCrash (gm : Game) (d : Cell) : Prop :=
  ¬ inBoundsP (gm.enemy.nextPosD d) ∨
    gm.enemy.nextPosD d ∈ gm.player.trail ∪ gm.enemy.trail

instance (gm : Game) : Decidable (pCrash gm) := by
  unfold pCrash; infer_instance

instance (gm : Game) (d : Cell) : Decidable (eCrash gm d) := by
  unfold eCrash; infer_instance

/-- The tick resolver written out explicitly for a playing state. -/
theorem update_eq (gm : Game) (h : gm.state = GState.playing) :
    gm.update =
      (if pCrash gm ∧ eCrash gm (agentDecide gm).dir then
        { gm with
          enemy := { gm.enemy with direction := (agentDecide gm).dir }
          plan := (agentDecide gm).plan
          ticks := (agentDecide gm).ticks
          state := GState.draw }
      else if pCrash gm ∨
          gm.player.nextPos = gm.enemy.nextPosD (agentDecide gm).dir then
        { gm with
          enemy := { gm.enemy with direction := (agentDecide gm).dir }
          plan := (agentDecide gm).plan
          ticks := (agentDecide gm).ticks
          state := GState.lose }
      else if eCrash gm (agentDecide gm).dir then
        { gm with
          enemy := { gm.enemy with direction := (agentDecide gm).dir }
          plan := (agentDecide gm).plan
          ticks := (agentDecide gm).ticks
          state := GState.win
          score := gm.score + 1 }
      else
        { gm with
          player := { gm.player with
            pos := gm.player.nextPos
            trail := insert gm.player.nextPos gm.player.trail }
          enemy := { gm.enemy with
            direction := (agentDecide gm).dir
            pos := gm.enemy.nextPosD (agentDecide gm).dir
            trail := insert (gm.enemy.nextPosD (agentDecide gm).dir) gm.enemy.trail }
          plan := (agentDecide gm).plan
          ticks := (agentDecide gm).ticks
          frame := gm.frame + 1 }) := by
  unfold Game.update
  rw [if_neg (fun hc => hc h)]
  rfl

/-- The tick resolver is the identity on terminal states. -/
theorem update_terminal (gm : Game) (h : gm.state ≠ GState.playing) :
    gm.update = gm := by
  unfold Game.update
  rw [if_pos h]

/-- The tick resolver never changes the player's heading. -/
theorem update_player_direction (gm : Game) :
    (gm.update).player.direction = gm.player.direction := by
  by_cases h : gm.state = GState.playing
  · rw [update_eq gm h]
    split_ifs <;> rfl
  · rw [update_terminal gm h]

/-- handle_input sets the heading to the request or keeps it. -/
theorem handleInput_direction (gm : Game) (r : Cell) :
    (gm.handleInput r).player.direction = r ∨
      (gm.handleInput r).player.direction = gm.player.direction := by
  unfold Game.handleInput
  split_ifs
  · exact Or.inr rfl
  · exact Or.inl rfl

/-- handle_input changes nothing except possibly the player's heading. -/
theorem handleInput_frame_fields (gm : Game) (r : Cell) :
    (gm.handleInput r).state = gm.state ∧
    (gm.handleInput r).player.pos = gm.player.pos ∧
    (gm.handleInput r).player.trail = gm.player.trail ∧
    (gm.handleInput r).enemy = gm.enemy ∧
    (gm.handleInput r).plan = gm.plan ∧
    (gm.handleInput r).ticks = gm.ticks ∧
    (gm.handleInput r).score = gm.score ∧
    (gm.handleInput r).frame = gm.frame := by
  unfold Game.handleInput
  split_ifs <;> exact ⟨rfl, rfl, rfl, rfl, rfl, rfl, rfl, rfl⟩

end Tron

namespace Tron

/-- Claim C1: tick resolution precedence.  For a playing state, with the
pre-move blocked union and both candidate next cells (the enemy's from
the heading the agent just decided): both crashing yields Draw; else a
player crash or a head-on yields PlayerLoses; else an enemy crash yields
PlayerWins and increments the win counter; else both cycles move, both
trails gain the new cell, the frame counter advances and the state stays
Playing. -/
theorem update_resolution (gm : Game) (h : gm.state = GState.playing) :
    (pCrash gm ∧ eCrash gm (agentDecide gm).dir →
      (gm.update).state = GState.draw) ∧
    (¬(pCrash gm ∧ eCrash gm (agentDecide gm).dir) →
      (pCrash gm ∨ gm.player.nextPos = gm.enemy.nextPosD (agentDecide gm).dir) →
      (gm.update).state = GState.lose) ∧
    (¬(pCrash gm ∧ eCrash gm (agentDecide gm).dir) →
      ¬(pCrash gm ∨ gm.player.nextPos = gm.enemy.nextPosD (agentDecide gm).dir) →
      eCrash gm (agentDecide gm).dir →
      (gm.update).state = GState.win ∧ (gm.update).score = gm.score + 1) ∧
    (¬ pCrash gm → ¬ eCrash gm (agentDecide gm).dir →
      gm.player.nextPos ≠ gm.enemy.nextPosD (agentDecide gm).dir →
      (gm.update).state = GState.playing ∧
      (gm.update).player.pos = gm.player.nextPos ∧
      (gm.update).enemy.pos = gm.enemy.nextPosD (agentDecide gm).dir ∧
      (gm.update).player.trail = insert gm.player.nextPos gm.player.trail ∧
      (gm.update).enemy.trail =
        insert (gm.enemy.nextPosD (agentDecide gm).dir) gm.enemy.trail ∧
      (gm.update).frame = gm.frame + 1) := by
  rw [update_eq gm h]
  refine ⟨?_, ?_, ?_, ?_⟩
  · intro hc
    rw [if_pos hc]
  · intro h1 h2
    rw [if_neg h1, if_pos h2]
  · intro h1 h2 h3
    rw [if_neg h1, if_neg h2, if_pos h3]
    exact ⟨rfl, rfl⟩
  · intro h1 h2 h3
    rw [if_neg (fun hc => h2 hc.2), if_neg (fun hc => hc.elim h1 h3), if_neg h2]
    exact ⟨h, rfl, rfl, rfl, rfl, rfl⟩

/-- A cheap playing state whose agent simply follows its stored plan. -/
def gmC1 : Game :=
  { player := Cycle.make (5, 5) (1, 0)
    enemy := Cycle.make (30, 30) (1, 0)
    plan := [(31, 30)]
    ticks := 0
    state := GState.playing
    score := 0
    frame := 0 }

/-- Witness for update_resolution at the cheap playing state. -/
theorem update_resolution_witness :
    gmC1.state = GState.playing ∧
    ((pCrash gmC1 ∧ eCrash gmC1 (agentDecide gmC1).dir →
      (gmC1.update).state = GState.draw) ∧
    (¬(pCrash gmC1 ∧ eCrash gmC1 (agentDecide gmC1).dir) →
      (pCrash gmC1 ∨ gmC1.player.nextPos = gmC1.enemy.nextPosD (agentDecide gmC1).dir) →
      (gmC1.update).state = GState.lose) ∧
    (¬(pCrash gmC1 ∧ eCrash gmC1 (agentDecide gmC1).dir) →
      ¬(pCrash gmC1 ∨ gmC1.player.nextPos = gmC1.enemy.nextPosD (agentDecide gmC1).dir) →
      eCrash gmC1 (agentDecide gmC1).dir →
      (gmC1.update).state = GState.win ∧ (gmC1.update).score = gmC1.score + 1) ∧
    (¬ pCrash gmC1 → ¬ eCrash gmC1 (agentDecide gmC1).dir →
      gmC1.player.nextPos ≠ gmC1.enemy.nextPosD (agentDecide gmC1).dir →
      (gmC1.update).state = GState.playing ∧
      (gmC1.update).player.pos = gmC1.player.nextPos ∧
      (gmC1.update).enemy.pos = gmC1.enemy.nextPosD (agentDecide gmC1).dir ∧
      (gmC1.update).player.trail = insert gmC1.player.nextPos gmC1.player.trail ∧
      (gmC1.update).enemy.trail =
        insert (gmC1.enemy.nextPosD (agentDecide gmC1).dir) gmC1.enemy.trail ∧
      (gmC1.update).frame = gmC1.frame + 1)) :=
  ⟨rfl, update_resolution gmC1 rfl⟩

/-- Claim C4: trail and position invariant.  The position is in the trail
at creation; across a tick the position stays in the trail, trails only
grow, and each trail's size grows by exactly one precisely when the tick
moved the cycles (equivalently, when the frame counter advanced); a tick
that reaches or sits in a terminal state leaves both trails unchanged. -/
theorem trail_invariant :
    (∀ p d, (Cycle.make p d).pos ∈ (Cycle.make p d).trail) ∧
    (∀ gm : Game, gm.player.pos ∈ gm.player.trail →
      gm.enemy.pos ∈ gm.enemy.trail →
      ((gm.update).player.pos ∈ (gm.update).player.trail ∧
       (gm.update).enemy.pos ∈ (gm.update).enemy.trail ∧
       gm.player.trail ⊆ (gm.update).player.trail ∧
       gm.enemy.trail ⊆ (gm.update).enemy.trail ∧
       ((gm.update).player.trail.card = gm.player.trail.card + 1 ↔
         (gm.update).frame = gm.frame + 1) ∧
       ((gm.update).enemy.trail.card = gm.enemy.trail.card + 1 ↔
         (gm.update).frame = gm.frame + 1) ∧
       ((gm.update).state ≠ GState.playing →
         (gm.update).player.trail = gm.player.trail ∧
         (gm.update).enemy.trail = gm.enemy.trail))) := by
  constructor
  · intro p d
    simp [Cycle.make]
  · intro gm hp he
    by_cases h : gm.state = GState.playing
    · rw [update_eq gm h]
      split_ifs with h1 h2 h3
      · exact ⟨hp, he, Finset.Subset.refl _, Finset.Subset.refl _,
          by simp, by simp, fun _ => ⟨rfl, rfl⟩⟩
      · exact ⟨hp, he, Finset.Subset.refl _, Finset.Subset.refl _,
          by simp, by simp, fun _ => ⟨rfl, rfl⟩⟩
      · exact ⟨hp, he, Finset.Subset.refl _, Finset.Subset.refl _,
          by simp, by simp, fun _ => ⟨rfl, rfl⟩⟩
      · have hnp : ¬ pCrash gm := fun hc => h2 (Or.inl hc)
        have hpn : gm.player.nextPos ∉ gm.player.trail := fun hmem =>
          hnp (Or.inr (Finset.mem_union_left _ hmem))
        have hen : gm.enemy.nextPosD (agentDecide gm).dir ∉ gm.enemy.trail :=
          fun hmem => h3 (Or.inr (Finset.mem_union_right _ hmem))
        refine ⟨?_, ?_, ?_, ?_, ?_, ?_, ?_⟩
        · exact Finset.mem_insert_self _ _
        · exact Finset.mem_insert_self _ _
        · exact Finset.subset_insert _ _
        · exact Finset.subset_insert _ _
        · simp [Finset.card_insert_of_not_mem hpn]
        · simp [Finset.card_insert_of_not_mem hen]
        · intro hterm
          exact absurd h hterm
    · rw [update_terminal gm h]
      exact ⟨hp, he, Finset.Subset.refl _, Finset.Subset.refl _,
        by simp, by simp, fun _ => ⟨rfl, rfl⟩⟩

/-- Witness for trail_invariant at the cheap playing state. -/
theorem trail_invariant_witness :
    (gmC1.player.pos ∈ gmC1.player.trail ∧
      gmC1.enemy.pos ∈ gmC1.enemy.trail) ∧
    ((gmC1.update).player.pos ∈ (gmC1.update).player.trail ∧
     (gmC1.update).enemy.pos ∈ (gmC1.update).enemy.trail ∧
     gmC1.player.trail ⊆ (gmC1.update).player.trail ∧
     gmC1.enemy.trail ⊆ (gmC1.update).enemy.trail ∧
     ((gmC1.update).player.trail.card = gmC1.player.trail.card + 1 ↔
       (gmC1.update).frame = gmC1.frame + 1) ∧
     ((gmC1.update).enemy.trail.card = gmC1.enemy.trail.card + 1 ↔
       (gmC1.update).frame = gmC1.frame + 1) ∧
     ((gmC1.update).state ≠ GState.playing →
       (gmC1.update).player.trail = gmC1.player.trail ∧
       (gmC1.update).enemy.trail = gmC1.enemy.trail)) :=
  ⟨⟨by decide, by decide⟩, trail_invariant.2 gmC1 (by decide) (by decide)⟩

/-- A terminal (lost) state used to exercise the terminal no-op claims. -/
def gmC5 : Game :=
  { player := Cycle.make (5, 5) (1, 0)
    enemy := Cycle.make (9, 9) (-1, 0)
    plan := []
    ticks := 0
    state := GState.lose
    score := 0
    frame := 0 }

/-- Counterexample to claim C5 as stated: in a terminal state,
handle_input still applies a requested heading (the source never guards
handle_input on the game state), so set_player_heading is not a no-op
there. -/
theorem terminal_input_changes_heading :
    gmC5.state ≠ GState.playing ∧ gmC5.handleInput (0, -1) ≠ gmC5 := by
  decide

/-- Claim C5 as amended: update is the identity on every terminal state;
handle_input (in any state, terminal ones included) changes nothing
except possibly the player's heading; and reset rebuilds the initial
playing state, the only way to leave a terminal state. -/
theorem terminal_absorbing :
    (∀ gm : Game, gm.state ≠ GState.playing → gm.update = gm) ∧
    (∀ gm : Game, ∀ r : Cell,
      (gm.handleInput r).state = gm.state ∧
      (gm.handleInput r).player.pos = gm.player.pos ∧
      (gm.handleInput r).player.trail = gm.player.trail ∧
      (gm.handleInput r).enemy = gm.enemy ∧
      (gm.handleInput r).plan = gm.plan ∧
      (gm.handleInput r).ticks = gm.ticks ∧
      (gm.handleInput r).score = gm.score ∧
      (gm.handleInput r).frame = gm.frame) ∧
    initGame.state = GState.playing :=
  ⟨update_terminal, handleInput_frame_fields, rfl⟩

/-- Witness for terminal_absorbing at the terminal state. -/
theorem terminal_absorbing_witness : gmC5.update = gmC5 :=
  terminal_absorbing.1 gmC5 (by decide)

/-- handle_input either rejects a reversal or applies the request. -/
theorem handleInput_cases (gm : Game) (r : Cell) :
    (gm.player.direction = opposite r ∧ gm.handleInput r = gm) ∨
    (gm.player.direction ≠ opposite r ∧
      (gm.handleInput r).player.direction = r) := by
  by_cases hc : gm.player.direction = opposite r
  · left
    refine ⟨hc, ?_⟩
    unfold Game.handleInput
    rw [if_pos hc]
  · right
    refine ⟨hc, ?_⟩
    unfold Game.handleInput
    rw [if_neg hc]

/-- Claim C7: the no-reverse rule.  A request equal to the opposite of
the current heading is silently ignored, and across one frame (one
optional heading set, one tick, one more heading set) the effective
heading never becomes the opposite of the previous frame's effective
heading. -/
theorem no_reverse :
    (∀ gm : Game, ∀ r : Cell, r = opposite gm.player.direction →
      gm.handleInput r = gm) ∧
    (∀ gm : Game, ∀ r r' : Cell, gm.player.direction ∈ DIRS → r ∈ DIRS →
      r' ∈ DIRS →
      (((gm.handleInput r).update).handleInput r').player.direction ≠
        opposite (gm.handleInput r).player.direction) := by
  constructor
  · intro gm r hr
    rcases handleInput_cases gm r with ⟨_, heq⟩ | ⟨hc, _⟩
    · exact heq
    · exfalso
      apply hc
      rw [hr, opposite_opposite]
  · intro gm r r' hd hr hr'
    have hd1 : (gm.handleInput r).player.direction ∈ DIRS := by
      rcases handleInput_direction gm r with h | h
      · rw [h]; exact hr
      · rw [h]; exact hd
    have hup : ((gm.handleInput r).update).player.direction =
        (gm.handleInput r).player.direction := update_player_direction _
    rcases handleInput_cases ((gm.handleInput r).update) r' with
      ⟨hc, heq⟩ | ⟨hc, heq⟩
    · rw [heq, hup]
      exact fun hx => opposite_ne_self_of_mem _ hd1 hx.symm
    · rw [heq]
      intro hx
      apply hc
      rw [hup, hx, opposite_opposite]

/-- Witness for no_reverse at the terminal state (where the tick is a
cheap no-op). -/
theorem no_reverse_witness :
    (((gmC5.handleInput (0, -1)).update).handleInput (0, 1)).player.direction ≠
      opposite (gmC5.handleInput (0, -1)).player.direction :=
  no_reverse.2 gmC5 (0, -1) (0, 1) (by decide) (by decide) (by decide)

end Tron
